import Mathlib

/-! # Grid-GAN preprocessing: dataset splitting, grid ground truth and data generation

A shallow embedding of `src/preprocessing.cpp` and `src/grid_framework_ops.cpp`.

Modelling conventions.

* `std::vector<T>` is `List T`.
* A `double` is the rational number it denotes, a binary64 number `x` being one with
  `round_double x = x`. The product of two `double`s is the exact product rounded to the
  nearest binary64 number, ties to even (`double_mul`); `int(x)` is truncation toward zero
  (`double_to_int`). A C++ literal such as `0.2` is `round_double (1 / 5)`.
* `std::shuffle` with a time based seed is an arbitrary function on lists; theorems assume
  only that it returns a permutation of its argument. The two calls made by `split_dataset`
  get two independent functions.
* Code whose behaviour is undefined in C++ (constructing a vector from an inverted or
  out-of-range pointer range, integer division by zero, reading or writing a matrix element
  outside its bounds) returns `none`.
* `cv::Mat` of type `CV_8UC1` is a record of its dimensions and its rows; sizes, indices and
  pixel values are natural numbers (the C `int` sizes are non-negative in every call).
* `generate_data` is a function from the library calls it depends on (`Env`: the file system,
  `imread`, and `rotate_image`, which wraps `warpAffine` of OpenCV) to the list of its file
  system events, or to the reason why the run stopped together with the events up to that
  point. A call `imwrite(dir + file, content)` is an event with the directory and the file
  name as separate fields.
-/

namespace GridGAN

/-! ## `preprocessing.cpp` -/

/-- The C++ conversion `int(x)` of a `double`: truncation toward zero. -/
def double_to_int (x : ℚ) : Int := Int.tdiv x.num x.den

/-- The power `2 ^ e` of two with an integer exponent. -/
def pow2 (e : Int) : ℚ :=
  if 0 ≤ e then ((2 ^ e.toNat : Nat) : ℚ) else 1 / ((2 ^ (-e).toNat : Nat) : ℚ)

/-- Rounding to the nearest integer, ties to the even one. -/
def round_half_even (m : ℚ) : Int :=
  if m - (⌊m⌋ : ℚ) < 1 / 2 then ⌊m⌋
  else if 1 / 2 < m - (⌊m⌋ : ℚ) then ⌊m⌋ + 1
  else if ⌊m⌋ % 2 = 0 then ⌊m⌋ else ⌊m⌋ + 1

/-- The number of halvings that bring `n` below 2, with at most `fuel` halvings; with
`fuel = n` it is the integer part of the binary logarithm of `n`. -/
def halvings : Nat → Nat → Nat
  | 0, _ => 0
  | fuel + 1, n => if 2 ≤ n then halvings fuel (n / 2) + 1 else 0

/-- The exponent `e` with `2 ^ e ≤ |x| < 2 ^ (e + 1)`, for `x ≠ 0`. -/
def binary_exponent (x : ℚ) : Int :=
  if pow2 ((halvings x.num.natAbs x.num.natAbs : Int) - (halvings x.den x.den : Int)) ≤ |x| then
    (halvings x.num.natAbs x.num.natAbs : Int) - (halvings x.den x.den : Int)
  else (halvings x.num.natAbs x.num.natAbs : Int) - (halvings x.den x.den : Int) - 1

/-- Rounding of a real number to the nearest binary64 number, ties to even (the default
rounding of IEEE 754): 53 significant bits, with the fixed spacing `2 ^ (-1074)` below
`2 ^ (-1022)`. Overflow to infinity, which starts at `2 ^ 1024`, is not modelled. -/
def round_double (x : ℚ) : ℚ :=
  if x = 0 then 0
  else (round_half_even (x / pow2 (max (binary_exponent x) (-1022) - 52)) : ℚ)
        * pow2 (max (binary_exponent x) (-1022) - 52)

/-- The product `a * b` of two `double`s: the exact product rounded to binary64. -/
def double_mul (a b : ℚ) : ℚ := round_double (a * b)

/-- The expression `int(percent * size)` of preprocessing.cpp:66 and 80, for a `double`
`percent` and an `int` `size`: the `int` is converted to `double`, which is exact, the
product is taken in binary64, and the result is truncated. The theorems apply it to
fractions in `[0,1)` and sizes below `2 ^ 31`, where the result is an `int`. -/
def scaled_size (percent : ℚ) (size : Int) : Int :=
  double_to_int (double_mul percent (size : ℚ))

/-- The range constructor `vector<T>(&data[first], &data[last])`: the elements
`data[first], ..., data[last-1]`. It is defined only for `0 ≤ first ≤ last ≤ data.size()`. -/
def vector_range {T : Type} (data : List T) (first last : Int) : Option (List T) :=
  if 0 ≤ first ∧ first ≤ last ∧ last ≤ data.length then
    some ((data.drop first.toNat).take (last - first).toNat)
  else none

/-- Function `train_test_split` (preprocessing.cpp:26-44). Returns `(train_data, test_data)`.
The message printed when `test_data.size() != test_size` does not change the returned
value; it is the subject of `train_test_split_reports`. -/
def train_test_split {T : Type} (shuffle : List T → List T) (data : List T) (test_size : Int) :
    Option (List T × List T) :=
  if test_size = 0 then
    some (data, [])
  else
    let data := shuffle data
    (vector_range data 0 test_size).bind fun test_data =>
    (vector_range data test_size ((data.length : Int) - 1)).bind fun train_data =>
    some (train_data, test_data)

/-- Function `split_dataset` (preprocessing.cpp:61-90). Returns the names of the partitions and the
partitions. -/
def split_dataset {T : Type} (shuffle₁ shuffle₂ : List T → List T) (dataset : List T)
    (val_percent_of_train test_size_percent : ℚ) : Option (List String × List (List T)) :=
  let total_data_size : Int := dataset.length
  let test_size : Int := scaled_size test_size_percent total_data_size
  if val_percent_of_train = 0 then
    (train_test_split shuffle₁ dataset test_size).bind fun (train_names, test_names) =>
    some (["train", "test"], [train_names, test_names])
  else
    let train_and_val_size : Int := total_data_size - test_size
    let val_size : Int := scaled_size val_percent_of_train train_and_val_size
    (train_test_split shuffle₁ dataset test_size).bind fun (train_names, test_names) =>
    (train_test_split shuffle₂ train_names val_size).bind fun (train_names, val_names) =>
    some (["train", "val", "test"], [train_names, val_names, test_names])

/-- The rotation angles `generate_data` iterates over for one partition
(preprocessing.cpp:148-153). -/
def rotations_augments (dataset_name : String) (rot_aug : Bool) : List Int :=
  if dataset_name = "train" ∧ rot_aug = true then [90, 180, 270, 360] else [0]

/-! ## `grid_framework_ops.cpp` -/

/-- A single-channel 8-bit matrix (`cv::Mat` of type `CV_8UC1`): its dimensions and its rows
of pixel values. -/
structure Mat where
  rows : Nat
  cols : Nat
  data : List (List Nat)
deriving DecidableEq

/-- The stored rows agree with the recorded dimensions. -/
def Mat.WF (m : Mat) : Prop :=
  m.data.length = m.rows ∧ ∀ row ∈ m.data, row.length = m.cols

instance (m : Mat) : Decidable m.WF := by
  unfold Mat.WF
  infer_instance

/-- The matrix `Mat::zeros(cv::Size(width, height), CV_8UC1)`: `height` rows and `width` columns. -/
def Mat.zeros (width height : Nat) : Mat :=
  { rows := height, cols := width, data := List.replicate height (List.replicate width 0) }

/-- Reading `m.at<uchar>(i, k)`; outside the matrix the read is undefined. -/
def Mat.at (m : Mat) (i k : Nat) : Option Nat :=
  if i < m.rows ∧ k < m.cols then (m.data[i]?).bind fun row => row[k]? else none

/-- The assignment `m.at<uchar>(i, k) = v`; outside the matrix the write is undefined. -/
def Mat.set (m : Mat) (i k : Nat) (v : Nat) : Option Mat :=
  if i < m.rows ∧ k < m.cols then
    some { m with data := m.data.set i ((m.data.getD i []).set k v) }
  else none

/-- Integer division `a / b` of non-negative `int`s; division by zero is undefined. -/
def int_div (a b : Nat) : Option Nat := if b = 0 then none else some (a / b)

/-- The loop `for (int i = 0; i < n; i++) s = body(i, s)`, which stops at the first
undefined step. -/
def for_loop {σ : Type} (n : Nat) (body : Nat → σ → Option σ) (s : σ) : Option σ :=
  match n with
  | 0 => some s
  | n + 1 => (for_loop n body s).bind (body n)

/-- The body of the loops of `generate_small_grid_ground_truth` at pixel `(i, k)`
(grid_framework_ops.cpp:27-28). -/
def mark_cell (mask : Mat) (grid_cell_size i k : Nat) (marked_cells : Mat) : Option Mat := do
  let px ← mask.at i k
  if px > 127 then
    let r ← int_div i grid_cell_size
    let c ← int_div k grid_cell_size
    marked_cells.set r c 255
  else
    some marked_cells

/-- Function `generate_small_grid_ground_truth` (grid_framework_ops.cpp:20-31). -/
def generate_small_grid_ground_truth (mask : Mat) (grid_size : Nat) : Option Mat := do
  let marked_cells := Mat.zeros grid_size grid_size
  let grid_cell_size ← int_div mask.rows grid_size
  for_loop mask.rows (fun i marked_cells =>
    for_loop mask.cols (fun k marked_cells =>
      mark_cell mask grid_cell_size i k marked_cells) marked_cells) marked_cells

/-- The body of the loops of `generate_grid_ground_truth` at pixel `(i, k)`
(grid_framework_ops.cpp:54-55). -/
def fill_pixel (marked_cells : Mat) (grid_cell_size i k : Nat) (ground_truth : Mat) :
    Option Mat := do
  let r ← int_div i grid_cell_size
  let c ← int_div k grid_cell_size
  let cell ← marked_cells.at r c
  if cell = 255 then ground_truth.set i k 255 else some ground_truth

/-- Function `generate_grid_ground_truth` (grid_framework_ops.cpp:45-58). Its result is
created with `cv::Size(mask.rows, mask.cols)`, that is with `mask.cols` rows and `mask.rows`
columns. -/
def generate_grid_ground_truth (mask : Mat) (grid_size : Nat) : Option Mat := do
  let marked_cells ← generate_small_grid_ground_truth mask grid_size
  let ground_truth := Mat.zeros mask.rows mask.cols
  let grid_cell_size ← int_div mask.rows grid_size
  for_loop mask.rows (fun i ground_truth =>
    for_loop mask.cols (fun k ground_truth =>
      fill_pixel marked_cells grid_cell_size i k ground_truth) ground_truth) ground_truth

/-- The body of the loops of `generate_grid_encoding` at pixel `(i, k)`
(grid_framework_ops.cpp:75-76). -/
def encode_pixel (grid_cell_len i k : Nat) (grid_enc : Mat) : Option Mat := do
  let a ← int_div i grid_cell_len
  let b ← int_div k grid_cell_len
  if a % 2 ≠ b % 2 then grid_enc.set i k 255 else some grid_enc

/-- Function `generate_grid_encoding` (grid_framework_ops.cpp:69-79). -/
def generate_grid_encoding (img_size grid_size : Nat) : Option Mat := do
  let grid_enc := Mat.zeros img_size img_size
  let grid_cell_len ← int_div img_size grid_size
  for_loop img_size (fun i grid_enc =>
    for_loop img_size (fun k grid_enc =>
      encode_pixel grid_cell_len i k grid_enc) grid_enc) grid_enc

/-- Whether `train_test_split` prints "Error; could not retrieve test data"
(preprocessing.cpp:40-41); `none` when the behaviour is undefined before the test is reached.
The function returns its pair whether or not the message is printed. -/
def train_test_split_reports {T : Type} (shuffle : List T → List T) (data : List T)
    (test_size : Int) : Option Bool :=
  if test_size = 0 then
    some false
  else
    let data := shuffle data
    (vector_range data 0 test_size).bind fun test_data =>
    (vector_range data test_size ((data.length : Int) - 1)).bind fun _ =>
    some (decide ((test_data.length : Int) ≠ test_size))

/-! ## `generate_data` -/

/-- What `imwrite` is given: a colour image or a single-channel matrix. -/
inductive Content (Img : Type) where
  | image (img : Img)
  | matrix (m : Mat)
deriving DecidableEq

/-- An effect of `generate_data` on the file system. `imwrite dir file c` stands for the call
`imwrite(dir + file, c)`. Messages written to `cout` are not recorded. -/
inductive Event (Img : Type) where
  | create_directories (path : String)
  | imwrite (dir file : String) (content : Content Img)
deriving DecidableEq

/-- How a run ends when it does not run to completion. -/
inductive Halt where
  | returned
  | thrown
  | undefined
deriving DecidableEq

/-- The library calls `generate_data` depends on: the file system, the image reader and
`rotate_image` (basic_img_ops.cpp:13-20), which is `warpAffine` of OpenCV. `Img` is the type
of colour images. -/
structure Env (Img : Type) where
  path_exists : String → Bool
  png_filenames : String → List String
  imread_color : String → Option Img
  imread_grayscale : String → Mat
  img_cols : Img → Nat
  img_rows : Img → Nat
  rotate_color : Img → Int → Img
  rotate_gray : Mat → Int → Mat

/-- The events so far and the counter `img_count` of the partition being written. -/
structure GenState (Img : Type) where
  events : List (Event Img)
  img_count : Nat

/-- The directory `grids_path` of a partition and grid size (preprocessing.cpp:157, 184). -/
def grids_path (dataset_path dataset_name : String) (grid_size : Nat) : String :=
  dataset_path ++ dataset_name ++ "/" ++ toString grid_size ++ "x" ++ toString grid_size
    ++ "grids" ++ "/"

/-- The body of the innermost loop of `generate_data`, for one image, rotation and grid size
(preprocessing.cpp:177-194). -/
def augment_unit {Img : Type} (env : Env Img) (dataset_path dataset_name : String)
    (img : Img) (mask : Mat) (rotation : Int) (grid_size : Nat) (st : GenState Img) :
    Except (Halt × List (Event Img)) (GenState Img) :=
  let imgs_partition_path := dataset_path ++ dataset_name ++ "/imgs/"
  let masks_partition_path := dataset_path ++ dataset_name ++ "/masks/"
  let img_rotated := env.rotate_color img rotation
  let events := st.events ++
    [Event.imwrite imgs_partition_path (toString st.img_count ++ ".png")
      (Content.image img_rotated)]
  match generate_grid_ground_truth mask grid_size with
  | none => Except.error (Halt.undefined, events)
  | some grid_mask =>
    let mask_rotated := env.rotate_gray grid_mask rotation
    let grids_path_imgs := grids_path dataset_path dataset_name grid_size ++ "/imgs/"
    let grids_path_masks := grids_path dataset_path dataset_name grid_size ++ "/masks/"
    Except.ok
      { events := events ++
          [Event.imwrite masks_partition_path (toString st.img_count ++ ".png")
              (Content.matrix mask_rotated),
           Event.create_directories grids_path_imgs,
           Event.create_directories grids_path_masks,
           Event.imwrite grids_path_imgs (toString st.img_count ++ ".png")
              (Content.image img_rotated),
           Event.imwrite grids_path_masks (toString st.img_count ++ ".png")
              (Content.matrix mask_rotated)],
        img_count := st.img_count + 1 }

/-- The matrix `m` has `R` rows and `C` columns and holds `f i k` at every position. -/
def Mat.Rep (m : Mat) (R C : Nat) (f : Nat → Nat → Nat) : Prop :=
  m.WF ∧ m.rows = R ∧ m.cols = C ∧ ∀ i k, i < R → k < C → m.at i k = some (f i k)

/-- The pixel at `(i, k)`, with 0 outside the matrix. -/
def Mat.get (m : Mat) (i k : Nat) : Nat := (m.at i k).getD 0

/-- Some pixel `(i', k')` that a row-major sweep over `C` columns visits before `(i, k)`
satisfies `cond` and is sent to position `(r, c)` by `(tr, tc)`. -/
def swept (C : Nat) (cond : Nat → Nat → Bool) (tr tc : Nat → Nat → Nat) (i k r c : Nat) : Prop :=
  ∃ i' k', (i' < i ∨ (i' = i ∧ k' < k)) ∧ k' < C ∧ cond i' k' = true ∧
    tr i' k' = r ∧ tc i' k' = c

/-- An 8x8 mask whose only non-zero pixel has value 200 and lies at row 3, column 4. -/
def single_pixel_mask : Mat :=
  { rows := 8, cols := 8,
    data := [[0, 0, 0, 0, 0, 0, 0, 0], [0, 0, 0, 0, 0, 0, 0, 0], [0, 0, 0, 0, 0, 0, 0, 0],
             [0, 0, 0, 0, 200, 0, 0, 0], [0, 0, 0, 0, 0, 0, 0, 0], [0, 0, 0, 0, 0, 0, 0, 0],
             [0, 0, 0, 0, 0, 0, 0, 0], [0, 0, 0, 0, 0, 0, 0, 0]] }

/-- The names of the files written into directory `dir`, in the order of writing. -/
def written_in {Img : Type} (dir : String) (events : List (Event Img)) : List String :=
  events.filterMap fun e =>
    match e with
    | Event.imwrite d file _ => if d = dir then some file else none
    | Event.create_directories _ => none

/-- The single-channel matrices written, in the order of writing. -/
def persisted_masks {Img : Type} (events : List (Event Img)) : List Mat :=
  events.filterMap fun e =>
    match e with
    | Event.imwrite _ _ (Content.matrix m) => some m
    | _ => none

/-- The events of one pass through the innermost loop of `generate_data` with counter `n`,
when the grid ground truth of the mask is `grid_mask`. -/
def unit_events {Img : Type} (env : Env Img) (dataset_path dataset_name : String) (img : Img)
    (grid_mask : Mat) (rotation : Int) (grid_size n : Nat) : List (Event Img) :=
  [Event.imwrite (dataset_path ++ dataset_name ++ "/imgs/") (toString n ++ ".png")
      (Content.image (env.rotate_color img rotation)),
   Event.imwrite (dataset_path ++ dataset_name ++ "/masks/") (toString n ++ ".png")
      (Content.matrix (env.rotate_gray grid_mask rotation)),
   Event.create_directories (grids_path dataset_path dataset_name grid_size ++ "/imgs/"),
   Event.create_directories (grids_path dataset_path dataset_name grid_size ++ "/masks/"),
   Event.imwrite (grids_path dataset_path dataset_name grid_size ++ "/imgs/")
      (toString n ++ ".png") (Content.image (env.rotate_color img rotation)),
   Event.imwrite (grids_path dataset_path dataset_name grid_size ++ "/masks/")
      (toString n ++ ".png") (Content.matrix (env.rotate_gray grid_mask rotation))]

/-- The events of a loop whose pass for `x` with counter `c` emits `E x c` and advances the
counter by `k`. -/
def emit_all {α β : Type} (k : Nat) (E : α → Nat → List β) : List α → Nat → List β
  | [], _ => []
  | x :: xs, c => E x c ++ emit_all k E xs (c + k)

/-- A half turn about the point `(cols/2, rows/2)`, the centre `rotate_image` uses: the
pixel `(i, k)` of the result is the pixel `(rows - i, cols - k)` of the argument, and 0 when
that lies outside the matrix. The size is preserved. -/
def rotate_half_turn (m : Mat) : Mat :=
  { rows := m.rows, cols := m.cols,
    data := (List.range m.rows).map fun i => (List.range m.cols).map fun k =>
      if i = 0 ∨ k = 0 then 0 else m.get (m.rows - i) (m.cols - k) }

/-- A test environment with the given image file names: every file is readable, colour
images are the unit value and square, every mask is the 8x8 single-pixel mask, and an angle
of 180 degrees modulo 360 is a half turn while the other angles leave the matrix as it is. -/
def test_env (names : List String) : Env Unit :=
  { path_exists := fun _ => true
    png_filenames := fun _ => names
    imread_color := fun _ => some ()
    imread_grayscale := fun _ => single_pixel_mask
    img_cols := fun _ => 8
    img_rows := fun _ => 8
    rotate_color := fun img _ => img
    rotate_gray := fun m angle => if angle % 360 = 180 then rotate_half_turn m else m }

/-- The name `<n>.png` of the files of the unit with counter `n`. -/
def numbered (n : Nat) : String := toString n ++ ".png"

/-- The events of one sample of a partition when its counter starts at `c`: for every
rotation and every grid size, in this order, the events of the unit. -/
def sample_events {Img : Type} (env : Env Img) (dataset_path dataset_name img_path
    mask_path : String) (grid_sizes : List Nat) (rotations : List Int) (fp : String)
    (c : Nat) : List (Event Img) :=
  match env.imread_color (img_path ++ fp) with
  | none => []
  | some img =>
    emit_all grid_sizes.length (fun rotation c =>
      emit_all 1 (fun grid_size c =>
        unit_events env dataset_path dataset_name img
          ((generate_grid_ground_truth (env.imread_grayscale (mask_path ++ fp))
            grid_size).getD (Mat.zeros 0 0)) rotation grid_size c) grid_sizes c) rotations c

/-- The grid ground truth of the single-pixel mask for grid size 4. -/
def grid_truth_of_single_pixel_mask : Mat :=
  { rows := 8, cols := 8,
    data := [[0, 0, 0, 0, 0, 0, 0, 0], [0, 0, 0, 0, 0, 0, 0, 0],
             [0, 0, 0, 0, 255, 255, 0, 0], [0, 0, 0, 0, 255, 255, 0, 0],
             [0, 0, 0, 0, 0, 0, 0, 0], [0, 0, 0, 0, 0, 0, 0, 0],
             [0, 0, 0, 0, 0, 0, 0, 0], [0, 0, 0, 0, 0, 0, 0, 0]] }

/-- The half turn of the grid ground truth of the single-pixel mask for grid size 4: the
block of rows 5..6 and columns 3..4. -/
def half_turn_of_grid_truth : Mat :=
  { rows := 8, cols := 8,
    data := [[0, 0, 0, 0, 0, 0, 0, 0], [0, 0, 0, 0, 0, 0, 0, 0],
             [0, 0, 0, 0, 0, 0, 0, 0], [0, 0, 0, 0, 0, 0, 0, 0],
             [0, 0, 0, 0, 0, 0, 0, 0], [0, 0, 0, 255, 255, 0, 0, 0],
             [0, 0, 0, 255, 255, 0, 0, 0], [0, 0, 0, 0, 0, 0, 0, 0]] }

/-- The grid ground truth, for grid size 4, of the half turn of the single-pixel mask: the
block of rows 4..5 and columns 4..5. -/
def grid_truth_of_half_turn : Mat :=
  { rows := 8, cols := 8,
    data := [[0, 0, 0, 0, 0, 0, 0, 0], [0, 0, 0, 0, 0, 0, 0, 0],
             [0, 0, 0, 0, 0, 0, 0, 0], [0, 0, 0, 0, 0, 0, 0, 0],
             [0, 0, 0, 0, 255, 255, 0, 0], [0, 0, 0, 0, 255, 255, 0, 0],
             [0, 0, 0, 0, 0, 0, 0, 0], [0, 0, 0, 0, 0, 0, 0, 0]] }

/-! ## Splitting: auxiliary facts -/

theorem double_to_int_eq_floor {x : ℚ} (hx : 0 ≤ x) : double_to_int x = ⌊x⌋ := by
  unfold double_to_int
  rw [Rat.floor_def]
  exact Int.tdiv_eq_ediv (Rat.num_nonneg.mpr hx) (Int.ofNat_nonneg _)

theorem vector_range_eq {T : Type} (data : List T) (a b : Nat) (hab : a ≤ b)
    (hb : b ≤ data.length) :
    vector_range data (a : Int) (b : Int) = some ((data.drop a).take (b - a)) := by
  unfold vector_range
  have h : (0 : Int) ≤ a ∧ (a : Int) ≤ b ∧ (b : Int) ≤ data.length := by omega
  rw [if_pos h]
  have e : ((b : Int) - (a : Int)).toNat = b - a := by omega
  simp [e]

theorem vector_range_none {T : Type} (data : List T) (a b : Int)
    (h : a < 0 ∨ b < a ∨ (data.length : Int) < b) : vector_range data a b = none := by
  unfold vector_range
  rw [if_neg]
  omega

/-- The value of `train_test_split` for a non-zero, in-range test size. -/
theorem train_test_split_pos {T : Type} (shuffle : List T → List T) (data : List T)
    (hlen : (shuffle data).length = data.length) (ts : Nat) (h0 : 0 < ts)
    (h1 : ts + 1 ≤ data.length) :
    train_test_split shuffle data (ts : Int) =
      some (((shuffle data).drop ts).take (data.length - 1 - ts), (shuffle data).take ts) := by
  unfold train_test_split
  have hne : ¬ ((ts : Int) = 0) := by omega
  rw [if_neg hne]
  have e0 : vector_range (shuffle data) 0 (ts : Int) = some ((shuffle data).take ts) := by
    have := vector_range_eq (shuffle data) 0 ts (Nat.zero_le _) (by omega)
    simpa using this
  have e1 : vector_range (shuffle data) (ts : Int) (((shuffle data).length : Int) - 1)
      = some (((shuffle data).drop ts).take (data.length - 1 - ts)) := by
    have := vector_range_eq (shuffle data) ts (data.length - 1) (by omega) (by omega)
    have e : (((shuffle data).length : Int) - 1) = ((data.length - 1 : Nat) : Int) := by omega
    rw [e]
    exact this
  simp only [e0, e1, Option.bind_some, Option.some_bind]

/-- With a non-zero test size that leaves no room for the train slice the call is undefined. -/
theorem train_test_split_undefined {T : Type} (shuffle : List T → List T) (data : List T)
    (hlen : (shuffle data).length = data.length) (ts : Nat) (h0 : 0 < ts)
    (h1 : data.length < ts + 1) :
    train_test_split shuffle data (ts : Int) = none := by
  unfold train_test_split
  have hne : ¬ ((ts : Int) = 0) := by omega
  rw [if_neg hne]
  have e1 : vector_range (shuffle data) (ts : Int) (((shuffle data).length : Int) - 1)
      = none := vector_range_none _ _ _ (by omega)
  simp only [e1]
  cases vector_range (shuffle data) 0 (ts : Int) <;> rfl

theorem train_test_split_zero {T : Type} (shuffle : List T → List T) (data : List T) :
    train_test_split shuffle data 0 = some (data, []) := by
  simp [train_test_split]

/-- Every result of `train_test_split` is one of its two return statements. -/
theorem train_test_split_some {T : Type} (shuffle : List T → List T) (data : List T)
    (hlen : (shuffle data).length = data.length) (ts : Int) (tr te : List T)
    (h : train_test_split shuffle data ts = some (tr, te)) :
    (ts = 0 ∧ tr = data ∧ te = []) ∨
    (∃ k : Nat, ts = (k : Int) ∧ 0 < k ∧ k + 1 ≤ data.length ∧
      tr = ((shuffle data).drop k).take (data.length - 1 - k) ∧ te = (shuffle data).take k) := by
  by_cases h0 : ts = 0
  · subst h0
    rw [train_test_split_zero] at h
    simp only [Option.some.injEq, Prod.mk.injEq] at h
    exact Or.inl ⟨rfl, h.1.symm, h.2.symm⟩
  · right
    by_cases hneg : ts < 0
    · exfalso
      unfold train_test_split at h
      rw [if_neg h0] at h
      have e0 : vector_range (shuffle data) 0 ts = none := vector_range_none _ _ _ (by omega)
      simp [e0] at h
    · obtain ⟨k, rfl⟩ : ∃ k : Nat, ts = (k : Int) := ⟨ts.toNat, by omega⟩
      have hk : 0 < k := by omega
      by_cases hle : k + 1 ≤ data.length
      · rw [train_test_split_pos shuffle data hlen k hk hle] at h
        simp only [Option.some.injEq, Prod.mk.injEq] at h
        exact ⟨k, rfl, hk, hle, h.1.symm, h.2.symm⟩
      · rw [train_test_split_undefined shuffle data hlen k hk (by omega)] at h
        cases h

/-- The two parts returned by `train_test_split` are jointly contained, with multiplicity,
in the data. -/
theorem train_test_split_subperm {T : Type} (shuffle : List T → List T) (data : List T)
    (hperm : (shuffle data).Perm data) (ts : Int) (tr te : List T)
    (h : train_test_split shuffle data ts = some (tr, te)) :
    (tr ++ te).Subperm data := by
  rcases train_test_split_some shuffle data hperm.length_eq ts tr te h with
    ⟨_, rfl, rfl⟩ | ⟨k, _, _, _, rfl, rfl⟩
  · rw [List.append_nil]
  · have hsub : ((shuffle data).take k ++ ((shuffle data).drop k).take (data.length - 1 - k)).Sublist
        (shuffle data) := by
      have := List.Sublist.append (List.Sublist.refl ((shuffle data).take k))
        (List.take_sublist (data.length - 1 - k) ((shuffle data).drop k))
      rwa [List.take_append_drop] at this
    exact (List.perm_append_comm.subperm).trans (hsub.subperm.trans hperm.subperm)

/-! ## Binary64 rounding: auxiliary facts -/

theorem halvings_eq_log2 (fuel : Nat) : ∀ n, n ≤ fuel → halvings fuel n = Nat.log2 n := by
  induction fuel with
  | zero =>
    intro n hn
    have : n = 0 := by omega
    subst this
    simp [halvings, Nat.log2_zero]
  | succ fuel ih =>
    intro n hn
    rw [Nat.log2]
    simp only [halvings]
    by_cases h : 2 ≤ n
    · rw [if_pos h, if_pos h, ih (n / 2) (by omega)]
    · rw [if_neg h, if_neg h]


theorem pow2_eq_zpow (e : Int) : pow2 e = (2 : ℚ) ^ e := by
  unfold pow2
  by_cases h : 0 ≤ e
  · rw [if_pos h]
    obtain ⟨k, rfl⟩ := Int.eq_ofNat_of_zero_le h
    simp
  · rw [if_neg h]
    obtain ⟨k, hk⟩ : ∃ k : Nat, -e = (k : Int) := ⟨(-e).toNat, by omega⟩
    have he : e = -(k : Int) := by omega
    rw [hk, he, zpow_neg, zpow_natCast]
    simp

theorem pow2_pos (e : Int) : 0 < pow2 e := by
  rw [pow2_eq_zpow]
  exact zpow_pos (by norm_num) e

theorem pow2_add (a b : Int) : pow2 (a + b) = pow2 a * pow2 b := by
  simp only [pow2_eq_zpow]
  exact zpow_add₀ (by norm_num) a b

theorem pow2_le_pow2 {a b : Int} (h : a ≤ b) : pow2 a ≤ pow2 b := by
  simp only [pow2_eq_zpow]
  exact zpow_le_zpow_right₀ (by norm_num) h

theorem pow2_lt_pow2_iff {a b : Int} : pow2 a < pow2 b ↔ a < b := by
  simp only [pow2_eq_zpow]
  exact zpow_lt_zpow_iff_right₀ (by norm_num)

theorem pow2_natCast (k : Nat) : pow2 (k : Int) = ((2 ^ k : Nat) : ℚ) := by
  rw [pow2_eq_zpow, zpow_natCast]
  simp

/-- For a positive rational the computed exponent brackets it between two powers of 2. -/
theorem binary_exponent_spec {x : ℚ} (hx : 0 < x) :
    pow2 (binary_exponent x) ≤ x ∧ x < pow2 (binary_exponent x + 1) := by
  have hnum : 0 < x.num := Rat.num_pos.mpr hx
  obtain ⟨p, hp⟩ : ∃ p : Nat, x.num = (p : Int) := ⟨x.num.toNat, by omega⟩
  have hp0 : p ≠ 0 := by
    intro h
    rw [hp, h] at hnum
    exact absurd hnum (by decide)
  have hq0 : x.den ≠ 0 := x.den_nz
  have hnat : x.num.natAbs = p := by rw [hp]; rfl
  have hq_pos : (0 : ℚ) < (x.den : ℚ) := by exact_mod_cast Nat.pos_of_ne_zero hq0
  have hmul : x * (x.den : ℚ) = (p : ℚ) := by
    have h := Rat.mul_den_eq_num x
    rw [hp] at h
    exact_mod_cast h
  have hlp₁ : ((2 ^ Nat.log2 p : Nat) : ℚ) ≤ (p : ℚ) := by
    exact_mod_cast Nat.log2_self_le hp0
  have hlp₂ : (p : ℚ) < ((2 ^ (Nat.log2 p + 1) : Nat) : ℚ) := by
    exact_mod_cast Nat.lt_log2_self
  have hlq₁ : ((2 ^ Nat.log2 x.den : Nat) : ℚ) ≤ (x.den : ℚ) := by
    exact_mod_cast Nat.log2_self_le hq0
  have hlq₂ : (x.den : ℚ) < ((2 ^ (Nat.log2 x.den + 1) : Nat) : ℚ) := by
    exact_mod_cast Nat.lt_log2_self
  have habs : |x| = x := abs_of_pos hx
  unfold binary_exponent
  rw [hnat, halvings_eq_log2 p p (le_refl _), halvings_eq_log2 x.den x.den (le_refl _), habs]
  have hsplit : ∀ a b : Nat, pow2 ((a : Int) - (b : Int))
      = ((2 ^ a : Nat) : ℚ) / ((2 ^ b : Nat) : ℚ) := by
    intro a b
    rw [pow2_eq_zpow, zpow_sub₀ (by norm_num), zpow_natCast, zpow_natCast]
    simp
  have hpowpos : ∀ a : Nat, (0 : ℚ) < ((2 ^ a : Nat) : ℚ) := by
    intro a
    exact_mod_cast Nat.two_pow_pos a
  by_cases hb : pow2 ((Nat.log2 p : Int) - (Nat.log2 x.den : Int)) ≤ x
  · rw [if_pos hb]
    refine ⟨hb, ?_⟩
    have e : (Nat.log2 p : Int) - (Nat.log2 x.den : Int) + 1
        = ((Nat.log2 p + 1 : Nat) : Int) - (Nat.log2 x.den : Int) := by push_cast; ring
    rw [e, hsplit, lt_div_iff₀ (hpowpos _)]
    calc x * ((2 ^ Nat.log2 x.den : Nat) : ℚ)
        ≤ x * (x.den : ℚ) := mul_le_mul_of_nonneg_left hlq₁ hx.le
      _ = (p : ℚ) := hmul
      _ < ((2 ^ (Nat.log2 p + 1) : Nat) : ℚ) := hlp₂
  · rw [if_neg hb]
    constructor
    · have e : (Nat.log2 p : Int) - (Nat.log2 x.den : Int) - 1
          = (Nat.log2 p : Int) - ((Nat.log2 x.den + 1 : Nat) : Int) := by push_cast; ring
      rw [e, hsplit, div_le_iff₀ (hpowpos _)]
      calc ((2 ^ Nat.log2 p : Nat) : ℚ)
          ≤ (p : ℚ) := hlp₁
        _ = x * (x.den : ℚ) := hmul.symm
        _ ≤ x * ((2 ^ (Nat.log2 x.den + 1) : Nat) : ℚ) :=
            mul_le_mul_of_nonneg_left hlq₂.le hx.le
    · have e : (Nat.log2 p : Int) - (Nat.log2 x.den : Int) - 1 + 1
          = (Nat.log2 p : Int) - (Nat.log2 x.den : Int) := by ring
      rw [e]
      exact lt_of_not_le hb

theorem round_half_even_cases (m : ℚ) : round_half_even m = ⌊m⌋ ∨
    (round_half_even m = ⌊m⌋ + 1 ∧ 1 / 2 ≤ m - (⌊m⌋ : ℚ)) := by
  unfold round_half_even
  by_cases h₁ : m - (⌊m⌋ : ℚ) < 1 / 2
  · rw [if_pos h₁]; exact Or.inl rfl
  · rw [if_neg h₁]
    have h₁' : 1 / 2 ≤ m - (⌊m⌋ : ℚ) := not_lt.mp h₁
    by_cases h₂ : 1 / 2 < m - (⌊m⌋ : ℚ)
    · rw [if_pos h₂]; exact Or.inr ⟨rfl, h₁'⟩
    · rw [if_neg h₂]
      by_cases h₃ : ⌊m⌋ % 2 = 0
      · rw [if_pos h₃]; exact Or.inl rfl
      · rw [if_neg h₃]; exact Or.inr ⟨rfl, h₁'⟩

theorem round_half_even_ge {m : ℚ} {A : Int} (h : (A : ℚ) ≤ m) : A ≤ round_half_even m := by
  have hf : A ≤ ⌊m⌋ := Int.le_floor.mpr h
  rcases round_half_even_cases m with e | ⟨e, _⟩ <;> rw [e] <;> omega

theorem round_half_even_le {m : ℚ} {B : Int} (h : m ≤ (B : ℚ)) : round_half_even m ≤ B := by
  rcases round_half_even_cases m with e | ⟨e, he⟩
  · rw [e]
    exact Int.floor_le_iff.mpr (by linarith)  
  · rw [e]
    have : ⌊m⌋ < B := by
      rw [Int.floor_lt]
      rcases lt_or_eq_of_le h with h' | h'
      · exact h'
      · exfalso
        rw [h', Int.floor_intCast] at he
        simp at he
        linarith
    omega

theorem round_half_even_lt {m : ℚ} {B : Int} (h : m < (B : ℚ) - 1 / 2) :
    round_half_even m ≤ B - 1 := by
  have hfl : ⌊m⌋ < B := by
    rw [Int.floor_lt]
    linarith
  rcases round_half_even_cases m with e | ⟨e, he⟩
  · rw [e]; omega
  · rw [e]
    have : ⌊m⌋ ≠ B - 1 := by
      intro hh
      rw [hh] at he
      push_cast at he
      linarith
    omega

theorem round_double_pos_eq {x : ℚ} (hx : x ≠ 0) :
    round_double x = (round_half_even (x / pow2 (max (binary_exponent x) (-1022) - 52)) : ℚ)
        * pow2 (max (binary_exponent x) (-1022) - 52) := by
  unfold round_double
  rw [if_neg hx]

/-- Below `2 ^ 53` the rounding grid contains the integers. -/
theorem quantum_exponent_nonpos {x : ℚ} (hx : 0 < x) (hlt : x < pow2 53) :
    max (binary_exponent x) (-1022) - 52 ≤ 0 := by
  have h := (binary_exponent_spec hx).1
  have : binary_exponent x < 53 := pow2_lt_pow2_iff.mp (lt_of_le_of_lt h hlt)
  omega

theorem int_div_pow2 (K : Int) {t : Int} (ht : t ≤ 0) :
    (K : ℚ) / pow2 t = ((K * (2 ^ (-t).toNat : Nat) : Int) : ℚ) := by
  have e : pow2 t * pow2 (-t) = 1 := by
    rw [← pow2_add]
    simp [pow2]
  have hk : pow2 (-t) = ((2 ^ (-t).toNat : Nat) : ℚ) := by
    have : (-t) = (((-t).toNat : Nat) : Int) := by omega
    conv_lhs => rw [this]
    exact pow2_natCast _
  rw [div_eq_iff (pow2_pos t).ne']
  push_cast
  rw [mul_assoc, ← Nat.cast_ofNat, ← Nat.cast_pow, ← hk, mul_comm (pow2 (-t)), e, mul_one]

theorem round_double_nonneg {x : ℚ} (hx : 0 ≤ x) : 0 ≤ round_double x := by
  rcases eq_or_lt_of_le hx with h | h
  · rw [← h]; simp [round_double]
  · rw [round_double_pos_eq h.ne']
    apply mul_nonneg _ (pow2_pos _).le
    have : (0 : Int) ≤ round_half_even (x / pow2 (max (binary_exponent x) (-1022) - 52)) :=
      round_half_even_ge (by
        simp only [Int.cast_zero]
        exact div_nonneg hx (pow2_pos _).le)
    exact_mod_cast this

/-- Rounding does not cross an integer from above. -/
theorem round_double_ge_int {x : ℚ} (hx : 0 < x) (hlt : x < pow2 53) {K : Int}
    (h : (K : ℚ) ≤ x) : (K : ℚ) ≤ round_double x := by
  have ht := quantum_exponent_nonpos hx hlt
  rw [round_double_pos_eq hx.ne']
  have hA := int_div_pow2 K ht
  have hle : ((K * (2 ^ (-(max (binary_exponent x) (-1022) - 52)).toNat : Nat) : Int) : ℚ)
      ≤ x / pow2 (max (binary_exponent x) (-1022) - 52) := by
    rw [← hA]
    exact div_le_div_of_nonneg_right h (pow2_pos _).le
  have := round_half_even_ge hle
  have hcast : ((K * (2 ^ (-(max (binary_exponent x) (-1022) - 52)).toNat : Nat) : Int) : ℚ)
      ≤ (round_half_even (x / pow2 (max (binary_exponent x) (-1022) - 52)) : ℚ) := by
    exact_mod_cast this
  calc (K : ℚ) = (K : ℚ) / pow2 (max (binary_exponent x) (-1022) - 52)
        * pow2 (max (binary_exponent x) (-1022) - 52) := by
          rw [div_mul_cancel₀ _ (pow2_pos _).ne']
    _ ≤ _ := by
          rw [hA]
          exact mul_le_mul_of_nonneg_right hcast (pow2_pos _).le

/-- Rounding does not cross an integer from below. -/
theorem round_double_le_int {x : ℚ} (hx : 0 < x) (hlt : x < pow2 53) {K : Int}
    (h : x ≤ (K : ℚ)) : round_double x ≤ (K : ℚ) := by
  have ht := quantum_exponent_nonpos hx hlt
  rw [round_double_pos_eq hx.ne']
  have hA := int_div_pow2 K ht
  have hle : x / pow2 (max (binary_exponent x) (-1022) - 52)
      ≤ ((K * (2 ^ (-(max (binary_exponent x) (-1022) - 52)).toNat : Nat) : Int) : ℚ) := by
    rw [← hA]
    exact div_le_div_of_nonneg_right h (pow2_pos _).le
  have := round_half_even_le hle
  have hcast : (round_half_even (x / pow2 (max (binary_exponent x) (-1022) - 52)) : ℚ)
      ≤ ((K * (2 ^ (-(max (binary_exponent x) (-1022) - 52)).toNat : Nat) : Int) : ℚ) := by
    exact_mod_cast this
  calc _ ≤ (K : ℚ) / pow2 (max (binary_exponent x) (-1022) - 52)
        * pow2 (max (binary_exponent x) (-1022) - 52) := by
          rw [hA]
          exact mul_le_mul_of_nonneg_right hcast (pow2_pos _).le
    _ = (K : ℚ) := by rw [div_mul_cancel₀ _ (pow2_pos _).ne']

/-- A binary64 number below 1 is at most `1 - 2 ^ (-53)`. -/
theorem double_lt_one_le {f : ℚ} (hd : round_double f = f) (h0 : 0 ≤ f) (h1 : f < 1) :
    f ≤ 1 - pow2 (-53) := by
  have hq : pow2 (-53) ≤ 1 / 2 := by
    have : pow2 (-53) ≤ pow2 (-1) := pow2_le_pow2 (by norm_num)
    have e : pow2 (-1) = 1 / 2 := by simp [pow2]
    rwa [e] at this
  rcases eq_or_lt_of_le h0 with h | hpos
  · rw [← h]
    linarith
  · obtain ⟨hlo, hhi⟩ := binary_exponent_spec hpos
    have he : binary_exponent f < 0 := by
      have : pow2 (binary_exponent f) < pow2 0 := by
        have e : pow2 0 = 1 := by simp [pow2]
        rw [e]
        exact lt_of_le_of_lt hlo h1
      exact pow2_lt_pow2_iff.mp this
    by_cases hcase : binary_exponent f = -1
    · have ht : max (binary_exponent f) (-1022) - 52 = -53 := by
        rw [hcase]
        rfl
      have hrd := round_double_pos_eq hpos.ne'
      rw [hd, ht] at hrd
      have hr : (round_half_even (f / pow2 (-53)) : ℚ) * pow2 (-53) < 1 := by
        rw [← hrd]
        exact h1
      have hpp : pow2 (-53) * pow2 53 = 1 := by
        rw [← pow2_add]
        simp [pow2]
      have h53 : pow2 53 = ((2 ^ 53 : Int) : ℚ) := by
        simp [pow2]
      have hr' : (round_half_even (f / pow2 (-53)) : ℚ) < ((2 ^ 53 : Int) : ℚ) := by
        rw [← h53]
        have := mul_lt_mul_of_pos_right hr (pow2_pos 53)
        rwa [mul_assoc, hpp, mul_one, one_mul] at this
      have hint : round_half_even (f / pow2 (-53)) ≤ 2 ^ 53 - 1 := by
        have : round_half_even (f / pow2 (-53)) < 2 ^ 53 := by exact_mod_cast hr'
        omega
      have hcast : (round_half_even (f / pow2 (-53)) : ℚ) ≤ pow2 53 - 1 := by
        rw [h53]
        exact_mod_cast hint
      rw [hrd]
      calc (round_half_even (f / pow2 (-53)) : ℚ) * pow2 (-53)
          ≤ (pow2 53 - 1) * pow2 (-53) := mul_le_mul_of_nonneg_right hcast (pow2_pos _).le
        _ = 1 - pow2 (-53) := by
            rw [sub_mul, mul_comm (pow2 53), hpp, one_mul]
    · have he' : binary_exponent f + 1 ≤ -1 := by omega
      have : f < 1 / 2 := by
        have h2 : pow2 (binary_exponent f + 1) ≤ pow2 (-1) := pow2_le_pow2 he'
        have e : pow2 (-1) = 1 / 2 := by simp [pow2]
        rw [e] at h2
        exact lt_of_lt_of_le hhi h2
      linarith

/-- The rounded product of a binary64 fraction below 1 and a positive integer below `2 ^ 53`
is below the integer. -/
theorem round_double_frac_lt {f : ℚ} (h0 : 0 ≤ f) (h1 : f ≤ 1 - pow2 (-53)) {n : Nat}
    (hn : 0 < n) (hn53 : n < 2 ^ 53) : round_double (f * (n : ℚ)) < (n : ℚ) := by
  have hnq : (0 : ℚ) < (n : ℚ) := by exact_mod_cast hn
  have hq53 : 0 < pow2 (-53) := pow2_pos _
  have h53 : pow2 53 = ((2 ^ 53 : Nat) : ℚ) := by
    simp [pow2]
  have hn53' : (n : ℚ) < pow2 53 := by
    rw [h53]
    exact_mod_cast hn53
  have hxn : f * (n : ℚ) < (n : ℚ) := by nlinarith
  rcases eq_or_lt_of_le (mul_nonneg h0 hnq.le) with hz | hx
  · rw [← hz]
    simpa [round_double] using hnq
  · have hlt : f * (n : ℚ) < pow2 53 := lt_trans hxn hn53'
    have ht := quantum_exponent_nonpos hx hlt
    obtain ⟨hlo, _⟩ := binary_exponent_spec hx
    rw [round_double_pos_eq hx.ne']
    generalize htdef : max (binary_exponent (f * (n : ℚ))) (-1022) - 52 = t at ht ⊢
    have hN := int_div_pow2 (n : Int) ht
    have hpt := pow2_pos t
    -- the integer is more than half a unit above the scaled product
    have hmax : pow2 (t + 52) < (n : ℚ) := by
      have : t + 52 = max (binary_exponent (f * (n : ℚ))) (-1022) := by omega
      rw [this]
      rcases max_cases (binary_exponent (f * (n : ℚ))) (-1022) with ⟨e, _⟩ | ⟨e, _⟩
      · rw [e]
        exact lt_of_le_of_lt hlo hxn
      · rw [e]
        have h1022 : pow2 (-1022) < pow2 0 := pow2_lt_pow2_iff.mpr (by norm_num)
        have e0 : pow2 0 = 1 := by simp [pow2]
        rw [e0] at h1022
        have : (1 : ℚ) ≤ (n : ℚ) := by exact_mod_cast hn
        linarith
    have hhalf : (1 : ℚ) / 2 < (n : ℚ) / pow2 t * pow2 (-53) := by
      have e1 : pow2 (t + 52) = pow2 t * pow2 52 := pow2_add t 52
      have e2 : pow2 52 * pow2 (-53) = 1 / 2 := by
        rw [← pow2_add]
        simp [pow2]
      have e3 : (n : ℚ) / pow2 t * pow2 (-53) = (n : ℚ) * pow2 (-53) / pow2 t := by ring
      rw [e3, lt_div_iff₀ hpt]
      calc 1 / 2 * pow2 t = pow2 (t + 52) * pow2 (-53) := by
            rw [e1, mul_assoc, e2]
            ring
        _ < (n : ℚ) * pow2 (-53) := mul_lt_mul_of_pos_right hmax hq53
    have hm : f * (n : ℚ) / pow2 t < (((n : Int) * (2 ^ (-t).toNat : Nat) : Int) : ℚ) - 1 / 2 := by
      rw [← hN]
      have e : f * (n : ℚ) / pow2 t = f * ((n : ℚ) / pow2 t) := by ring
      have hNpos : 0 < (n : ℚ) / pow2 t := div_pos hnq hpt
      have h3 : f * ((n : ℚ) / pow2 t) ≤ (1 - pow2 (-53)) * ((n : ℚ) / pow2 t) :=
        mul_le_mul_of_nonneg_right h1 hNpos.le
      have e4 : ((n : Int) : ℚ) = (n : ℚ) := by simp
      rw [e, e4]
      nlinarith
    have hr := round_half_even_lt hm
    have hcast : (round_half_even (f * (n : ℚ) / pow2 t) : ℚ)
        ≤ (((n : Int) * (2 ^ (-t).toNat : Nat) : Int) : ℚ) - 1 := by
      exact_mod_cast hr
    calc (round_half_even (f * (n : ℚ) / pow2 t) : ℚ) * pow2 t
        ≤ ((((n : Int) * (2 ^ (-t).toNat : Nat) : Int) : ℚ) - 1) * pow2 t :=
          mul_le_mul_of_nonneg_right hcast hpt.le
      _ = (n : ℚ) - pow2 t := by
          rw [← hN, sub_mul, div_mul_cancel₀ _ hpt.ne', one_mul]
          simp
      _ < (n : ℚ) := by linarith

/-! ## Splitting: the sizes -/

theorem scaled_size_natCast (f : ℚ) (m : Nat) :
    scaled_size f (m : Int) = double_to_int (round_double (f * (m : ℚ))) := by
  unfold scaled_size double_mul
  rw [Int.cast_natCast]

theorem scaled_size_nonneg {f : ℚ} (h0 : 0 ≤ f) (m : Nat) : 0 ≤ scaled_size f (m : Int) := by
  rw [scaled_size_natCast]
  have hx : 0 ≤ round_double (f * (m : ℚ)) :=
    round_double_nonneg (mul_nonneg h0 (Nat.cast_nonneg m))
  rw [double_to_int_eq_floor hx]
  exact Int.floor_nonneg.mpr hx

theorem scaled_size_zero (f : ℚ) : scaled_size f 0 = 0 := by
  unfold scaled_size double_mul
  simp [round_double, double_to_int]

theorem pow2_53 : pow2 53 = ((2 ^ 53 : Nat) : ℚ) := by
  simp [pow2]

/-- A binary64 fraction in `[0,1)` of a positive size truncates to a size strictly below
it. -/
theorem scaled_size_lt {f : ℚ} (hd : round_double f = f) (h0 : 0 ≤ f) (h1 : f < 1) {m : Nat}
    (hm : 0 < m) (hm53 : m < 2 ^ 53) : scaled_size f (m : Int) < (m : Int) := by
  rw [scaled_size_natCast]
  have hx : 0 ≤ round_double (f * (m : ℚ)) :=
    round_double_nonneg (mul_nonneg h0 (Nat.cast_nonneg m))
  rw [double_to_int_eq_floor hx, Int.floor_lt]
  have := round_double_frac_lt h0 (double_lt_one_le hd h0 h1) hm hm53
  simpa using this

/-- The size is the floor of the exact product, or one more when the binary64 product
rounds up to the next integer. -/
theorem scaled_size_floor {f : ℚ} (h0 : 0 ≤ f) (h1 : f < 1) (m : Nat) (hm53 : m < 2 ^ 53) :
    ⌊f * (m : ℚ)⌋ ≤ scaled_size f (m : Int) ∧ scaled_size f (m : Int) ≤ ⌊f * (m : ℚ)⌋ + 1 := by
  rw [scaled_size_natCast]
  have hmq : (0 : ℚ) ≤ (m : ℚ) := Nat.cast_nonneg m
  have hx0 : 0 ≤ f * (m : ℚ) := mul_nonneg h0 hmq
  have hr : 0 ≤ round_double (f * (m : ℚ)) := round_double_nonneg hx0
  rw [double_to_int_eq_floor hr]
  rcases eq_or_lt_of_le hx0 with hz | hpos
  · rw [← hz]
    simp [round_double]
  · have hlt : f * (m : ℚ) < pow2 53 := by
      rw [pow2_53]
      have : (m : ℚ) < ((2 ^ 53 : Nat) : ℚ) := by exact_mod_cast hm53
      nlinarith
    constructor
    · exact Int.le_floor.mpr (round_double_ge_int hpos hlt (Int.floor_le _))
    · have hup : f * (m : ℚ) ≤ ((⌊f * (m : ℚ)⌋ + 1 : Int) : ℚ) := by
        push_cast
        exact (Int.lt_floor_add_one _).le
      have := round_double_le_int hpos hlt hup
      have h2 : ((⌊round_double (f * (m : ℚ))⌋ : Int) : ℚ)
          ≤ ((⌊f * (m : ℚ)⌋ + 1 : Int) : ℚ) := le_trans (Int.floor_le _) this
      exact_mod_cast h2

/-- The binary64 values of the literals `0.2`, `0.6` and `0.58`, and of the products that
decide the sizes for 10, 5 and 50 ids. -/
theorem round_double_literals :
    round_double (1 / 5) = 3602879701896397 / 18014398509481984 ∧
    round_double (3 / 5) = 5404319552844595 / 9007199254740992 ∧
    round_double (29 / 50) = 5224175567749775 / 9007199254740992 ∧
    round_double (1 / 2) = 1 / 2 ∧ round_double (1 / 4) = 1 / 4 ∧
    double_mul (round_double (1 / 5)) 10 = 2 ∧
    double_mul (round_double (3 / 5)) 5 = 3 ∧
    double_mul (round_double (29 / 50)) 50 = 8162774324609023 / 281474976710656 := by
  decide!

/-- The first split made by `split_dataset` always returns, for a binary64 fraction in
`[0,1)` and a vector whose length is an `int`. -/
theorem first_split_eq {T : Type} (shuffle : List T → List T) (ids : List T)
    (hlen : (shuffle ids).length = ids.length) {f : ℚ} (hd : round_double f = f)
    (h0 : 0 ≤ f) (h1 : f < 1) (hn : ids.length < 2 ^ 31) :
    train_test_split shuffle ids (scaled_size f (ids.length : Int)) =
      some ((if (scaled_size f (ids.length : Int)).toNat = 0 then ids
             else ((shuffle ids).drop (scaled_size f (ids.length : Int)).toNat).take
                    (ids.length - 1 - (scaled_size f (ids.length : Int)).toNat)),
            (shuffle ids).take (scaled_size f (ids.length : Int)).toNat) := by
  have hnn := scaled_size_nonneg h0 ids.length
  have hcast : scaled_size f (ids.length : Int)
      = (((scaled_size f (ids.length : Int)).toNat : Nat) : Int) := by omega
  by_cases hz : (scaled_size f (ids.length : Int)).toNat = 0
  · rw [if_pos hz]
    have h0' : scaled_size f (ids.length : Int) = 0 := by omega
    rw [h0']
    simp [train_test_split_zero]
  · rw [if_neg hz]
    have hpos : 0 < ids.length := by
      rcases Nat.eq_zero_or_pos ids.length with h | h
      · rw [h] at hz
        simp [scaled_size_zero] at hz
      · exact h
    have hlt := scaled_size_lt hd h0 h1 hpos (by omega)
    conv_lhs => rw [hcast]
    exact train_test_split_pos shuffle ids hlen _ (Nat.pos_of_ne_zero hz) (by omega)

theorem nodup_of_subperm {T : Type} {l₁ l₂ : List T} (h : l₁.Subperm l₂) (hnd : l₂.Nodup) :
    l₁.Nodup := by
  obtain ⟨l, hp, hs⟩ := h
  exact hp.nodup_iff.mp (hnd.sublist hs)

/-- Every result of `split_dataset` comes from one of its two branches. -/
theorem split_dataset_some {T : Type} (sh₁ sh₂ : List T → List T) (ids : List T) (vf tf : ℚ)
    (r : List String × List (List T))
    (h : split_dataset sh₁ sh₂ ids vf tf = some r) :
    (vf = 0 ∧ ∃ tr te,
      train_test_split sh₁ ids (scaled_size tf (ids.length : Int)) = some (tr, te) ∧
      r = (["train", "test"], [tr, te])) ∨
    (vf ≠ 0 ∧ ∃ tr₁ te tr va,
      train_test_split sh₁ ids (scaled_size tf (ids.length : Int)) = some (tr₁, te) ∧
      train_test_split sh₂ tr₁
        (scaled_size vf ((ids.length : Int) - scaled_size tf (ids.length : Int)))
        = some (tr, va) ∧
      r = (["train", "val", "test"], [tr, va, te])) := by
  unfold split_dataset at h
  by_cases hz : vf = 0
  · left
    simp only [hz, if_true] at h
    refine ⟨hz, ?_⟩
    cases h₁ : train_test_split sh₁ ids (scaled_size tf (ids.length : Int)) with
    | none => rw [h₁] at h; cases h
    | some p =>
      rw [h₁] at h
      simp only [Option.some_bind, Option.some.injEq] at h
      exact ⟨p.1, p.2, rfl, h.symm⟩
  · right
    simp only [hz, if_false] at h
    refine ⟨hz, ?_⟩
    cases h₁ : train_test_split sh₁ ids (scaled_size tf (ids.length : Int)) with
    | none => rw [h₁] at h; cases h
    | some p =>
      rw [h₁] at h
      simp only [Option.some_bind] at h
      cases h₂ : train_test_split sh₂ p.1
          (scaled_size vf ((ids.length : Int) - scaled_size tf (ids.length : Int))) with
      | none => rw [h₂] at h; cases h
      | some q =>
        rw [h₂] at h
        simp only [Option.some_bind, Option.some.injEq] at h
        exact ⟨p.1, p.2, q.1, q.2, rfl, h₂, h.symm⟩

/-- The test partition in every result of `split_dataset`. -/
theorem split_dataset_some_test {T : Type} (sh₁ sh₂ : List T → List T) (ids : List T)
    (hlen : (sh₁ ids).length = ids.length) {vf tf : ℚ}
    (htd : round_double tf = tf) (ht0 : 0 ≤ tf) (ht1 : tf < 1) (hn : ids.length < 2 ^ 31)
    (r : List String × List (List T))
    (h : split_dataset sh₁ sh₂ ids vf tf = some r) :
    (vf = 0 ∧ ∃ tr, r = (["train", "test"],
      [tr, (sh₁ ids).take (scaled_size tf (ids.length : Int)).toNat])) ∨
    (vf ≠ 0 ∧ ∃ tr va, r = (["train", "val", "test"],
      [tr, va, (sh₁ ids).take (scaled_size tf (ids.length : Int)).toNat])) := by
  have hfirst := first_split_eq sh₁ ids hlen htd ht0 ht1 hn
  rcases split_dataset_some sh₁ sh₂ ids vf tf r h with
    ⟨hz, tr, te, h₁, rfl⟩ | ⟨hz, tr₁, te, tr, va, h₁, _, rfl⟩
  · rw [hfirst] at h₁
    simp only [Option.some.injEq, Prod.mk.injEq] at h₁
    exact Or.inl ⟨hz, tr, by rw [h₁.2]⟩
  · rw [hfirst] at h₁
    simp only [Option.some.injEq, Prod.mk.injEq] at h₁
    exact Or.inr ⟨hz, tr, va, by rw [h₁.2]⟩

/-- A sufficient condition on the sizes the code computes for `split_dataset` to return. -/
theorem split_dataset_returns {T : Type} (sh₁ sh₂ : List T → List T)
    (h₁ : ∀ l, (sh₁ l).Perm l) (h₂ : ∀ l, (sh₂ l).Perm l) (ids : List T) {vf tf : ℚ}
    (hvd : round_double vf = vf) (hv0 : 0 ≤ vf) (hv1 : vf < 1)
    (htd : round_double tf = tf) (ht0 : 0 ≤ tf) (ht1 : tf < 1) (hn : ids.length < 2 ^ 31)
    (hok : vf = 0 ∨ (scaled_size tf (ids.length : Int)).toNat = 0 ∨
      (scaled_size vf ((ids.length : Int) - scaled_size tf (ids.length : Int))).toNat = 0 ∨
      (scaled_size tf (ids.length : Int)).toNat
        + (scaled_size vf ((ids.length : Int) - scaled_size tf (ids.length : Int))).toNat + 2
        ≤ ids.length) :
    ∃ r, split_dataset sh₁ sh₂ ids vf tf = some r := by
  unfold split_dataset
  simp only []
  rw [first_split_eq sh₁ ids (h₁ ids).length_eq htd ht0 ht1 hn]
  by_cases hz : vf = 0
  · rw [if_pos hz]
    exact ⟨_, rfl⟩
  · rw [if_neg hz]
    simp only [Option.some_bind]
    have hnn := scaled_size_nonneg ht0 ids.length
    by_cases hts : (scaled_size tf (ids.length : Int)).toNat = 0
    · have h0' : scaled_size tf (ids.length : Int) = 0 := by omega
      simp only [h0', Int.toNat_zero, if_true, sub_zero]
      rw [first_split_eq sh₂ ids (h₂ ids).length_eq hvd hv0 hv1 hn]
      exact ⟨_, rfl⟩
    · rw [if_neg hts]
      have hpos : 0 < ids.length := by
        rcases Nat.eq_zero_or_pos ids.length with h | h
        · rw [h] at hts
          simp [scaled_size_zero] at hts
        · exact h
      have hlt := scaled_size_lt htd ht0 ht1 hpos (by omega)
      have hsub : (ids.length : Int) - scaled_size tf (ids.length : Int)
          = ((ids.length - (scaled_size tf (ids.length : Int)).toNat : Nat) : Int) := by omega
      have hvnn : 0 ≤ scaled_size vf
          ((ids.length : Int) - scaled_size tf (ids.length : Int)) := by
        rw [hsub]
        exact scaled_size_nonneg hv0 _
      by_cases hvs : (scaled_size vf
          ((ids.length : Int) - scaled_size tf (ids.length : Int))).toNat = 0
      · have hv0' : scaled_size vf
            ((ids.length : Int) - scaled_size tf (ids.length : Int)) = 0 := by omega
        rw [hv0']
        simp only [train_test_split_zero, Option.some_bind]
        exact ⟨_, rfl⟩
      · have hsum : (scaled_size tf (ids.length : Int)).toNat
            + (scaled_size vf
                ((ids.length : Int) - scaled_size tf (ids.length : Int))).toNat + 2
            ≤ ids.length := by
          rcases hok with h | h | h | h
          · exact absurd h hz
          · exact absurd h hts
          · exact absurd h hvs
          · exact h
        have hl : (((sh₁ ids).drop (scaled_size tf (ids.length : Int)).toNat).take
            (ids.length - 1 - (scaled_size tf (ids.length : Int)).toNat)).length
            = ids.length - 1 - (scaled_size tf (ids.length : Int)).toNat := by
          rw [List.length_take, List.length_drop, (h₁ ids).length_eq]
          omega
        have hvcast : scaled_size vf
            ((ids.length : Int) - scaled_size tf (ids.length : Int))
            = (((scaled_size vf
                ((ids.length : Int) - scaled_size tf (ids.length : Int))).toNat : Nat) : Int) := by
          omega
        rw [hvcast, train_test_split_pos sh₂ _ (h₂ _).length_eq _ (Nat.pos_of_ne_zero hvs)
          (by rw [hl]; omega)]
        exact ⟨_, rfl⟩

/-! ## Splitting: the claims -/

/-- C1 (defect in the code): coverage fails. For the ids `a, b`, no validation part, test
fraction 1/2 and a shuffle that leaves the order unchanged, `split_dataset` returns an empty
train partition and the test partition `[a]`: the id `b` of the input is in no partition. -/
theorem split_dataset_omits_last_id :
    split_dataset id id ["a", "b"] 0 (1 / 2) = some (["train", "test"], [[], ["a"]]) ∧
    ∃ parts, (split_dataset id id ["a", "b"] 0 (1 / 2)).map Prod.snd = some parts ∧
      "b" ∈ ["a", "b"] ∧ (∀ p ∈ parts, "b" ∉ p) ∧ (parts.map List.length).sum ≠ 2 := by
  decide!

/-- C2 as stated fails: for five ids, no validation part and test fraction 0.6 (the binary64
number nearest to 3/5, which is below 3/5) the exact product with 5 is below 3 and its floor
is 2, but the binary64 product is 3.0 and the test partition has the three ids `a, b, c`.
With the validation fraction 1/2 the same ids and test fraction give no result at all: the
sizes are 3 and 1 and the nested train slice is inverted. With the fraction read as the
decimal instead, 0.58 and 50 ids fail: the floor of `29/50 * 50` is 29 and the code
computes 28. -/
theorem split_dataset_test_size_rounds :
    split_dataset id id ["a", "b", "c", "d", "e"] 0 (round_double (3 / 5))
      = some (["train", "test"], [["d"], ["a", "b", "c"]]) ∧
    ⌊round_double (3 / 5) * (5 : ℚ)⌋ = 2 ∧
    ((["a", "b", "c"] : List String).length : Int) ≠ ⌊round_double (3 / 5) * (5 : ℚ)⌋ ∧
    (0 ≤ round_double (3 / 5) ∧ round_double (3 / 5) < 1) ∧
    split_dataset id id ["a", "b", "c", "d", "e"] (1 / 2) (round_double (3 / 5)) = none ∧
    scaled_size (round_double (29 / 50)) 50 = 28 ∧
    ⌊(29 / 50 : ℚ) * (50 : ℚ)⌋ = 29 := by
  decide!

/-- C2, amended: for binary64 fractions in `[0,1)`, a vector whose length is an `int` and
shuffles that permute, let `test_size = int(test_fraction * len)` be the size the code
computes with the binary64 product. It is the floor of the exact product or one more; the
first `test_size` elements of the shuffled input are a list of exactly that length; with
`vf = 0` the call returns the names `train, test` with that list as the test partition;
with `vf ≠ 0` the call returns whenever the nested slice is in range, and every result it
returns has the names `train, val, test` with that list as the test partition. -/
theorem split_dataset_test_partition {T : Type} (sh₁ sh₂ : List T → List T)
    (h₁ : ∀ l, (sh₁ l).Perm l) (h₂ : ∀ l, (sh₂ l).Perm l) (ids : List T) (vf tf : ℚ)
    (hvd : round_double vf = vf) (hv0 : 0 ≤ vf) (hv1 : vf < 1)
    (htd : round_double tf = tf) (ht0 : 0 ≤ tf) (ht1 : tf < 1) (hn : ids.length < 2 ^ 31) :
    (⌊tf * (ids.length : ℚ)⌋ ≤ scaled_size tf (ids.length : Int) ∧
      scaled_size tf (ids.length : Int) ≤ ⌊tf * (ids.length : ℚ)⌋ + 1) ∧
    (((sh₁ ids).take (scaled_size tf (ids.length : Int)).toNat).length : Int)
      = scaled_size tf (ids.length : Int) ∧
    (vf = 0 → ∃ train, split_dataset sh₁ sh₂ ids vf tf
        = some (["train", "test"],
            [train, (sh₁ ids).take (scaled_size tf (ids.length : Int)).toNat])) ∧
    (vf ≠ 0 →
      ((scaled_size tf (ids.length : Int)).toNat = 0 ∨
        (scaled_size vf ((ids.length : Int) - scaled_size tf (ids.length : Int))).toNat = 0 ∨
        (scaled_size tf (ids.length : Int)).toNat
          + (scaled_size vf ((ids.length : Int) - scaled_size tf (ids.length : Int))).toNat
          + 2 ≤ ids.length) →
      ∃ train val, split_dataset sh₁ sh₂ ids vf tf
        = some (["train", "val", "test"],
            [train, val, (sh₁ ids).take (scaled_size tf (ids.length : Int)).toNat])) ∧
    (vf ≠ 0 → ∀ r, split_dataset sh₁ sh₂ ids vf tf = some r →
      ∃ train val, r = (["train", "val", "test"],
            [train, val, (sh₁ ids).take (scaled_size tf (ids.length : Int)).toNat])) := by
  have hlen := (h₁ ids).length_eq
  have hnn := scaled_size_nonneg ht0 ids.length
  have hle : scaled_size tf (ids.length : Int) ≤ (ids.length : Int) := by
    rcases Nat.eq_zero_or_pos ids.length with h | h
    · rw [h]
      simp [scaled_size_zero]
    · exact (scaled_size_lt htd ht0 ht1 h (by omega)).le
  refine ⟨scaled_size_floor ht0 ht1 ids.length (by omega), ?_, ?_, ?_, ?_⟩
  · rw [List.length_take, hlen]
    omega
  · intro hz
    obtain ⟨r, hr⟩ := split_dataset_returns sh₁ sh₂ h₁ h₂ ids hvd hv0 hv1 htd ht0 ht1 hn
      (Or.inl hz)
    rcases split_dataset_some_test sh₁ sh₂ ids hlen htd ht0 ht1 hn r hr with
      ⟨_, tr, rfl⟩ | ⟨hne, _⟩
    · exact ⟨tr, hr⟩
    · exact absurd hz hne
  · intro hne hok
    obtain ⟨r, hr⟩ := split_dataset_returns sh₁ sh₂ h₁ h₂ ids hvd hv0 hv1 htd ht0 ht1 hn
      (Or.inr hok)
    rcases split_dataset_some_test sh₁ sh₂ ids hlen htd ht0 ht1 hn r hr with
      ⟨hz, _⟩ | ⟨_, tr, va, rfl⟩
    · exact absurd hz hne
    · exact ⟨tr, va, hr⟩
  · intro hne r hr
    rcases split_dataset_some_test sh₁ sh₂ ids hlen htd ht0 ht1 hn r hr with
      ⟨hz, _⟩ | ⟨_, tr, va, rfl⟩
    · exact absurd hz hne
    · exact ⟨tr, va, rfl⟩

/-- Witness for C2, amended: ten ids, validation fraction 0.25, test fraction 0.2, the first
shuffle the identity and the second a reversal. The sizes are 2 and 2, the nested slice is in
range, and the call returns the test partition `[0, 1]`. -/
theorem split_dataset_test_partition_witness :
    (scaled_size (round_double (1 / 5)) ((List.range 10).length : Int) = 2 ∧
      split_dataset id List.reverse (List.range 10) (1 / 4) (round_double (1 / 5))
        = some (["train", "val", "test"], [[6, 5, 4, 3], [8, 7], [0, 1]])) ∧
    (⌊round_double (1 / 5) * ((List.range 10).length : ℚ)⌋
        ≤ scaled_size (round_double (1 / 5)) ((List.range 10).length : Int) ∧
      scaled_size (round_double (1 / 5)) ((List.range 10).length : Int)
        ≤ ⌊round_double (1 / 5) * ((List.range 10).length : ℚ)⌋ + 1) ∧
    ((((id (List.range 10)).take
        (scaled_size (round_double (1 / 5)) ((List.range 10).length : Int)).toNat).length : Int)
      = scaled_size (round_double (1 / 5)) ((List.range 10).length : Int)) ∧
    ∃ train val, split_dataset id List.reverse (List.range 10) (1 / 4) (round_double (1 / 5))
        = some (["train", "val", "test"],
            [train, val, (id (List.range 10)).take
              (scaled_size (round_double (1 / 5)) ((List.range 10).length : Int)).toNat]) :=
  (fun h => ⟨by decide!, h.1, h.2.1, h.2.2.2.1 (by decide!) (by decide!)⟩)
    (split_dataset_test_partition id List.reverse (fun l => List.Perm.refl l)
      (fun l => List.reverse_perm l) (List.range 10) (1 / 4) (round_double (1 / 5))
      (by decide!) (by decide!) (by decide!) (by decide!) (by decide!) (by decide!)
      (by decide))

/-- C3 (defect in the code): with ten ids, no validation part and test fraction 0.2 (the
binary64 number nearest to 1/5) the names are `train, test` and the test partition is the
first two ids, but the train partition has seven ids, not eight: the id `9`, last after the
shuffle, is dropped. -/
theorem split_dataset_train_has_seven :
    split_dataset id id (List.range 10) 0 (round_double (1 / 5))
      = some (["train", "test"], [[2, 3, 4, 5, 6, 7, 8], [0, 1]]) := by
  decide!

/-- C4 (defect in the code): with five ids, validation fraction 1/2 and test fraction 1/4,
the first split returns the remainder `b, c, d`, of which `floor(1/2 * 3) = 1` id should go
to validation; the code puts two ids in `val` and returns an empty `train`, so `d` is lost
as well as `e`. -/
theorem split_dataset_val_of_five :
    train_test_split id ["a", "b", "c", "d", "e"] 1 = some (["b", "c", "d"], ["a"]) ∧
    split_dataset id id ["a", "b", "c", "d", "e"] (1 / 2) (1 / 4)
      = some (["train", "val", "test"], [[], ["b", "c"], ["a"]]) := by
  decide!

/-- C5: for distinct ids and shuffles that permute, the partitions in every result of
`split_dataset` are pairwise disjoint, each is free of repetitions and each contains only ids
of the input; and for binary64 fractions in `[0,1)` and a vector whose length is an `int` the
call does return whenever `vf = 0` or the nested slice, with the sizes the code computes, is
in range. -/
theorem split_dataset_partitions_disjoint {T : Type} (sh₁ sh₂ : List T → List T)
    (h₁ : ∀ l, (sh₁ l).Perm l) (h₂ : ∀ l, (sh₂ l).Perm l) (ids : List T)
    (hnd : ids.Nodup) (vf tf : ℚ)
    (hvd : round_double vf = vf) (hv0 : 0 ≤ vf) (hv1 : vf < 1)
    (htd : round_double tf = tf) (ht0 : 0 ≤ tf) (ht1 : tf < 1) (hn : ids.length < 2 ^ 31) :
    ((vf = 0 ∨ (scaled_size tf (ids.length : Int)).toNat = 0 ∨
        (scaled_size vf ((ids.length : Int) - scaled_size tf (ids.length : Int))).toNat = 0 ∨
        (scaled_size tf (ids.length : Int)).toNat
          + (scaled_size vf ((ids.length : Int) - scaled_size tf (ids.length : Int))).toNat
          + 2 ≤ ids.length) →
      ∃ r, split_dataset sh₁ sh₂ ids vf tf = some r) ∧
    ∀ names parts, split_dataset sh₁ sh₂ ids vf tf = some (names, parts) →
      parts.Pairwise List.Disjoint ∧ ∀ p ∈ parts, p.Nodup ∧ ∀ x ∈ p, x ∈ ids := by
  refine ⟨split_dataset_returns sh₁ sh₂ h₁ h₂ ids hvd hv0 hv1 htd ht0 ht1 hn, ?_⟩
  intro names parts h
  rcases split_dataset_some sh₁ sh₂ ids vf tf _ h with
    ⟨_, tr, te, e₁, hr⟩ | ⟨_, tr₁, te, tr, va, e₁, e₂, hr⟩
  · simp only [Prod.mk.injEq] at hr
    obtain ⟨_, rfl⟩ := hr
    have hsp := train_test_split_subperm sh₁ ids (h₁ ids) _ tr te e₁
    have hn := nodup_of_subperm hsp hnd
    have hsub := hsp.subset
    rw [List.nodup_append] at hn
    refine ⟨?_, ?_⟩
    · simp only [List.pairwise_cons, List.mem_singleton, forall_eq, List.not_mem_nil,
        false_imp_iff, implies_true, List.Pairwise.nil, and_true]
      exact hn.2.2
    · intro p hp
      simp only [List.mem_cons, List.mem_singleton, List.not_mem_nil, or_false] at hp
      rcases hp with rfl | rfl
      · exact ⟨hn.1, fun x hx => hsub (List.mem_append_left _ hx)⟩
      · exact ⟨hn.2.1, fun x hx => hsub (List.mem_append_right _ hx)⟩
  · simp only [Prod.mk.injEq] at hr
    obtain ⟨_, rfl⟩ := hr
    have hsp₁ := train_test_split_subperm sh₁ ids (h₁ ids) _ tr₁ te e₁
    have hsp₂ := train_test_split_subperm sh₂ tr₁ (h₂ tr₁) _ tr va e₂
    have hsp : ((tr ++ va) ++ te).Subperm ids :=
      ((List.subperm_append_right te).mpr hsp₂).trans hsp₁
    have hn := nodup_of_subperm hsp hnd
    have hsub := hsp.subset
    rw [List.nodup_append] at hn
    obtain ⟨hn₁, hte, hd⟩ := hn
    rw [List.nodup_append] at hn₁
    obtain ⟨htr, hva, hd'⟩ := hn₁
    refine ⟨?_, ?_⟩
    · simp only [List.pairwise_cons, List.mem_cons, List.mem_singleton, forall_eq_or_imp,
        forall_eq, List.not_mem_nil, false_imp_iff, implies_true, List.Pairwise.nil, and_true]
      refine ⟨⟨hd', ?_⟩, ?_⟩
      · exact fun x hx hx' => hd (List.mem_append_left _ hx) hx'
      · exact fun x hx hx' => hd (List.mem_append_right _ hx) hx'
    · intro p hp
      simp only [List.mem_cons, List.mem_singleton, List.not_mem_nil, or_false] at hp
      rcases hp with rfl | rfl | rfl
      · exact ⟨htr, fun x hx => hsub (List.mem_append_left _ (List.mem_append_left _ hx))⟩
      · exact ⟨hva, fun x hx => hsub (List.mem_append_left _ (List.mem_append_right _ hx))⟩
      · exact ⟨hte, fun x hx => hsub (List.mem_append_right _ hx)⟩

/-- Witness for C5: ten distinct ids, validation fraction 0.25, test fraction 0.2, two
reversing shuffles. -/
theorem split_dataset_partitions_disjoint_witness :
    split_dataset List.reverse List.reverse (List.range 10) (1 / 4) (round_double (1 / 5))
      = some (["train", "val", "test"], [[3, 4, 5, 6], [1, 2], [9, 8]]) ∧
    ([[3, 4, 5, 6], [1, 2], [9, 8]].Pairwise List.Disjoint ∧
      ∀ p ∈ [[3, 4, 5, 6], [1, 2], [9, 8]], p.Nodup ∧ ∀ x ∈ p, x ∈ List.range 10) :=
  ⟨by decide!,
   (split_dataset_partitions_disjoint List.reverse List.reverse (fun l => List.reverse_perm l)
      (fun l => List.reverse_perm l) (List.range 10) (List.nodup_range 10) (1 / 4)
      (round_double (1 / 5)) (by decide!) (by decide!) (by decide!) (by decide!) (by decide!)
      (by decide!) (by decide)).2
      ["train", "val", "test"] [[3, 4, 5, 6], [1, 2], [9, 8]] (by decide!)⟩

/-! ## Matrices: auxiliary facts -/

theorem Mat.at_of_wf {m : Mat} (h : m.WF) {i k : Nat} (hi : i < m.rows) (hk : k < m.cols) :
    ∃ v, m.at i k = some v := by
  obtain ⟨hl, hr⟩ := h
  have hi' : i < m.data.length := by omega
  have hrow : (m.data[i]).length = m.cols := hr _ (List.getElem_mem _)
  have hk' : k < (m.data[i]).length := by omega
  refine ⟨(m.data[i])[k], ?_⟩
  unfold Mat.at
  rw [if_pos ⟨hi, hk⟩, List.getElem?_eq_getElem hi', Option.some_bind,
    List.getElem?_eq_getElem hk']

theorem Mat.rep_get {m : Mat} (h : m.WF) : m.Rep m.rows m.cols m.get := by
  refine ⟨h, rfl, rfl, ?_⟩
  intro i k hi hk
  obtain ⟨v, hv⟩ := Mat.at_of_wf h hi hk
  simp [Mat.get, hv]

theorem Mat.zeros_rep (w h : Nat) : (Mat.zeros w h).Rep h w (fun _ _ => 0) := by
  refine ⟨⟨?_, ?_⟩, rfl, rfl, ?_⟩
  · simp [Mat.zeros]
  · intro row hrow
    simp only [Mat.zeros, List.mem_replicate] at hrow
    rw [hrow.2]
    simp [Mat.zeros]
  · intro i k hi hk
    unfold Mat.at
    have hc : i < (Mat.zeros w h).rows ∧ k < (Mat.zeros w h).cols := ⟨hi, hk⟩
    rw [if_pos hc]
    simp [Mat.zeros, List.getElem?_replicate, hi, hk]

/-- An in-range assignment succeeds and changes exactly the assigned position. -/
theorem Mat.set_rep {m : Mat} {R C : Nat} {f : Nat → Nat → Nat} (h : m.Rep R C f)
    {i k : Nat} (hi : i < R) (hk : k < C) (v : Nat) :
    ∃ m', m.set i k v = some m' ∧
      m'.Rep R C (fun i' k' => if i' = i ∧ k' = k then v else f i' k') := by
  obtain ⟨⟨hl, hr⟩, hR, hC, hat⟩ := h
  have hc : i < m.rows ∧ k < m.cols := by omega
  have hil : i < m.data.length := by omega
  have hset : m.set i k v
      = some { m with data := m.data.set i ((m.data.getD i []).set k v) } := by
    unfold Mat.set
    rw [if_pos hc]
  refine ⟨_, hset, ⟨?_, ?_⟩, hR, hC, ?_⟩
  · simpa using hl
  · intro row hrow
    simp only at hrow
    rcases List.mem_or_eq_of_mem_set hrow with h' | h'
    · exact hr row h'
    · rw [h', List.length_set, List.getD_eq_getElem _ _ hil]
      exact hr _ (List.getElem_mem _)
  · intro i' k' hi' hk'
    have hc' : i' < m.rows ∧ k' < m.cols := by omega
    have hold := hat i' k' hi' hk'
    unfold Mat.at at hold
    rw [if_pos hc'] at hold
    unfold Mat.at
    simp only []
    rw [if_pos hc']
    have hi'l : i' < m.data.length := by omega
    by_cases hii : i' = i
    · subst hii
      rw [List.getElem?_set_self hil, Option.some_bind]
      rw [List.getElem?_eq_getElem hil, Option.some_bind] at hold
      rw [List.getD_eq_getElem _ _ hil]
      by_cases hkk : k' = k
      · subst hkk
        have hkl : k' < (m.data[i']).length := by
          rw [hr _ (List.getElem_mem _)]
          omega
        rw [List.getElem?_set_self hkl]
        simp
      · rw [List.getElem?_set_ne (Ne.symm hkk), hold]
        simp [hkk]
    · rw [List.getElem?_set_ne (Ne.symm hii), hold]
      simp [hii]

/-- Two matrices with the same dimensions and the same pixels are equal. -/
theorem Mat.rep_ext {m m' : Mat} {R C : Nat} {f f' : Nat → Nat → Nat} (h : m.Rep R C f)
    (h' : m'.Rep R C f') (hf : ∀ i k, i < R → k < C → f i k = f' i k) : m = m' := by
  obtain ⟨⟨hl, hr⟩, hR, hC, hat⟩ := h
  obtain ⟨⟨hl', hr'⟩, hR', hC', hat'⟩ := h'
  have hdata : m.data = m'.data := by
    apply List.ext_getElem (by omega)
    intro i hi hi'
    have hrow : (m.data[i]).length = m.cols := hr _ (List.getElem_mem _)
    have hrow' : (m'.data[i]).length = m'.cols := hr' _ (List.getElem_mem _)
    apply List.ext_getElem (by omega)
    intro k hk hk'
    have hir : i < R := by omega
    have hkc : k < C := by omega
    have e := hat i k hir hkc
    have e' := hat' i k hir hkc
    unfold Mat.at at e e'
    rw [if_pos (by omega), List.getElem?_eq_getElem hi, Option.some_bind,
      List.getElem?_eq_getElem hk] at e
    rw [if_pos (by omega), List.getElem?_eq_getElem hi', Option.some_bind,
      List.getElem?_eq_getElem hk'] at e'
    simp only [Option.some.injEq] at e e'
    rw [e, e', hf i k hir hkc]
  cases m with
  | mk rows cols data =>
  cases m' with
  | mk rows' cols' data' =>
  simp only at hR hC hR' hC' hdata
  simp only [Mat.mk.injEq]
  exact ⟨by omega, by omega, hdata⟩

/-! ## Loops: auxiliary facts -/

/-- Invariant rule for `for_loop`: the loop runs to completion when every step does. -/
theorem for_loop_inv {σ : Type} (P : Nat → σ → Prop) (n : Nat) (body : Nat → σ → Option σ)
    (s : σ) (h0 : P 0 s)
    (hstep : ∀ i t, i < n → P i t → ∃ t', body i t = some t' ∧ P (i + 1) t') :
    ∃ t, for_loop n body s = some t ∧ P n t := by
  induction n with
  | zero => exact ⟨s, rfl, h0⟩
  | succ n ih =>
    obtain ⟨t, ht, hP⟩ := ih (fun i t hi => hstep i t (by omega))
    obtain ⟨t', ht', hP'⟩ := hstep n t (by omega) hP
    exact ⟨t', by simp [for_loop, ht, ht'], hP'⟩

/-- Invariant rule for the row-major double loop over `R` rows and `C` columns. -/
theorem sweep_inv {σ : Type} (R C : Nat) (step : Nat → Nat → σ → Option σ)
    (Q : Nat → Nat → σ → Prop) (s : σ) (h0 : Q 0 0 s)
    (hrow : ∀ i t, i < R → Q i C t → Q (i + 1) 0 t)
    (hstep : ∀ i k t, i < R → k < C → Q i k t → ∃ t', step i k t = some t' ∧ Q i (k + 1) t') :
    ∃ t, for_loop R (fun i t => for_loop C (fun k t => step i k t) t) s = some t ∧ Q R 0 t := by
  apply for_loop_inv (fun i t => Q i 0 t) R _ s h0
  intro i t hi hQ
  obtain ⟨t', ht', hQ'⟩ := for_loop_inv (fun k t => Q i k t) C (fun k t => step i k t) t hQ
    (fun k u hk hu => hstep i k u hi hk hu)
  exact ⟨t', ht', hrow i t' hi hQ'⟩

theorem swept_zero (C : Nat) (cond : Nat → Nat → Bool) (tr tc : Nat → Nat → Nat) (r c : Nat) :
    ¬ swept C cond tr tc 0 0 r c := by
  rintro ⟨i', k', h, _⟩
  omega

theorem swept_next_row (C : Nat) (cond : Nat → Nat → Bool) (tr tc : Nat → Nat → Nat)
    (i r c : Nat) : swept C cond tr tc (i + 1) 0 r c ↔ swept C cond tr tc i C r c := by
  constructor
  · rintro ⟨i', k', h, hk, hrest⟩
    exact ⟨i', k', by omega, hk, hrest⟩
  · rintro ⟨i', k', h, hk, hrest⟩
    exact ⟨i', k', by omega, hk, hrest⟩

theorem swept_next_col (C : Nat) (cond : Nat → Nat → Bool) (tr tc : Nat → Nat → Nat)
    (i k r c : Nat) (hk : k < C) :
    swept C cond tr tc i (k + 1) r c ↔
      swept C cond tr tc i k r c ∨ (cond i k = true ∧ tr i k = r ∧ tc i k = c) := by
  constructor
  · rintro ⟨i', k', h, hk', hrest⟩
    by_cases e : i' = i ∧ k' = k
    · obtain ⟨rfl, rfl⟩ := e
      exact Or.inr hrest
    · exact Or.inl ⟨i', k', by omega, hk', hrest⟩
  · rintro (⟨i', k', h, hk', hrest⟩ | hrest)
    · exact ⟨i', k', by omega, hk', hrest⟩
    · exact ⟨i, k, by omega, hk, hrest⟩

theorem swept_all (R C : Nat) (cond : Nat → Nat → Bool) (tr tc : Nat → Nat → Nat) (r c : Nat) :
    swept C cond tr tc R 0 r c ↔
      ∃ i k, i < R ∧ k < C ∧ cond i k = true ∧ tr i k = r ∧ tc i k = c := by
  constructor
  · rintro ⟨i', k', h, hk', hrest⟩
    exact ⟨i', k', by omega, hk', hrest⟩
  · rintro ⟨i', k', hi', hk', hrest⟩
    exact ⟨i', k', by omega, hk', hrest⟩

/-- A double loop whose step at `(i, k)` writes 255 at position `(tr i k, tc i k)` when
`cond i k` holds, and does nothing otherwise, runs to completion when its targets are in
range; the positions it has set to 255 are exactly the targets of the pixels satisfying
`cond`, and the other positions keep their values. -/
theorem scatter_sweep (R C H W : Nat) (cond : Nat → Nat → Bool) (tr tc : Nat → Nat → Nat)
    (step : Nat → Nat → Mat → Option Mat)
    (hstep : ∀ i k m, i < R → k < C →
      step i k m = if cond i k = true then m.set (tr i k) (tc i k) 255 else some m)
    (hb : ∀ i k, i < R → k < C → cond i k = true → tr i k < H ∧ tc i k < W)
    (m₀ : Mat) (f₀ : Nat → Nat → Nat) (h₀ : m₀.Rep H W f₀) :
    ∃ m f, for_loop R (fun i t => for_loop C (fun k t => step i k t) t) m₀ = some m ∧
      m.Rep H W f ∧
      ∀ r c, r < H → c < W →
        ((∃ i k, i < R ∧ k < C ∧ cond i k = true ∧ tr i k = r ∧ tc i k = c) → f r c = 255) ∧
        ((¬ ∃ i k, i < R ∧ k < C ∧ cond i k = true ∧ tr i k = r ∧ tc i k = c) →
          f r c = f₀ r c) := by
  obtain ⟨m, hm, f, hrep, hf⟩ := sweep_inv R C step
    (fun i k m => ∃ f, m.Rep H W f ∧ ∀ r c, r < H → c < W →
      (swept C cond tr tc i k r c → f r c = 255) ∧
      (¬ swept C cond tr tc i k r c → f r c = f₀ r c)) m₀
    ⟨f₀, h₀, fun r c _ _ => ⟨fun h => absurd h (swept_zero C cond tr tc r c), fun _ => rfl⟩⟩
    (by
      rintro i t _ ⟨f, hrep, hf⟩
      refine ⟨f, hrep, fun r c hr hc => ?_⟩
      rw [swept_next_row]
      exact hf r c hr hc)
    (by
      rintro i k t hi hk ⟨f, hrep, hf⟩
      rw [hstep i k t hi hk]
      by_cases hcond : cond i k = true
      · rw [if_pos hcond]
        obtain ⟨hr', hc'⟩ := hb i k hi hk hcond
        obtain ⟨t', ht', hrep'⟩ := Mat.set_rep hrep hr' hc' 255
        refine ⟨t', ht', _, hrep', fun r c hr hc => ?_⟩
        rw [swept_next_col C cond tr tc i k r c hk]
        constructor
        · rintro (h | ⟨_, h₁, h₂⟩)
          · by_cases e : r = tr i k ∧ c = tc i k
            · simp [e]
            · simp only [e, if_false]
              exact (hf r c hr hc).1 h
          · simp [h₁, h₂]
        · intro h
          have e : ¬ (r = tr i k ∧ c = tc i k) := by
            rintro ⟨rfl, rfl⟩
            exact h (Or.inr ⟨hcond, rfl, rfl⟩)
          simp only [e, if_false]
          exact (hf r c hr hc).2 (fun h' => h (Or.inl h'))
      · rw [if_neg hcond]
        refine ⟨t, rfl, f, hrep, fun r c hr hc => ?_⟩
        rw [swept_next_col C cond tr tc i k r c hk]
        constructor
        · rintro (h | ⟨h, _⟩)
          · exact (hf r c hr hc).1 h
          · exact absurd h hcond
        · intro h
          exact (hf r c hr hc).2 (fun h' => h (Or.inl h')))
  refine ⟨m, f, hm, hrep, fun r c hr hc => ?_⟩
  rw [← swept_all R C cond tr tc r c]
  exact hf r c hr hc

/-! ## Grid functions: auxiliary facts -/

theorem int_div_pos (a : Nat) {b : Nat} (hb : 0 < b) : int_div a b = some (a / b) := by
  unfold int_div
  rw [if_neg (by omega)]

/-- Facts about the cell extent when the grid size divides a positive side. -/
theorem cell_extent_facts {S g : Nat} (hpos : 0 < S) (hdiv : g ∣ S) :
    0 < g ∧ 0 < S / g ∧ S / g * g = S := by
  have hg : 0 < g := Nat.pos_of_dvd_of_pos hdiv hpos
  have hmul : S / g * g = S := Nat.div_mul_cancel hdiv
  refine ⟨hg, ?_, hmul⟩
  rcases Nat.eq_zero_or_pos (S / g) with h | h
  · rw [h] at hmul
    omega
  · exact h

theorem cell_index_lt {S g : Nat} (hpos : 0 < S) (hdiv : g ∣ S) {i : Nat} (hi : i < S) :
    i / (S / g) < g := by
  obtain ⟨_, he, hmul⟩ := cell_extent_facts hpos hdiv
  rw [Nat.div_lt_iff_lt_mul he, Nat.mul_comm, hmul]
  exact hi

/-- The occupancy grid of a square mask whose side is a positive multiple of the grid size. -/
theorem small_grid_rep (mask : Mat) (g S : Nat) (pix : Nat → Nat → Nat)
    (hrep : mask.Rep S S pix) (hpos : 0 < S) (hdiv : g ∣ S) :
    ∃ grid f, generate_small_grid_ground_truth mask g = some grid ∧ grid.Rep g g f ∧
      ∀ r c, r < g → c < g →
        ((∃ i k, i < S ∧ k < S ∧ 127 < pix i k ∧ i / (S / g) = r ∧ k / (S / g) = c) →
          f r c = 255) ∧
        ((¬ ∃ i k, i < S ∧ k < S ∧ 127 < pix i k ∧ i / (S / g) = r ∧ k / (S / g) = c) →
          f r c = 0) := by
  obtain ⟨_, hR, hC, hat⟩ := hrep
  obtain ⟨hg, he, hmul⟩ := cell_extent_facts hpos hdiv
  obtain ⟨m, f, hm, hmrep, hf⟩ := scatter_sweep S S g g
    (fun i k => decide (127 < pix i k)) (fun i _ => i / (S / g)) (fun _ k => k / (S / g))
    (fun i k t => mark_cell mask (S / g) i k t)
    (by
      intro i k t hi hk
      unfold mark_cell
      simp only [hat i k hi hk, int_div_pos _ he, Option.bind_eq_bind, Option.some_bind,
        gt_iff_lt, decide_eq_true_eq])
    (by
      intro i k hi hk _
      exact ⟨cell_index_lt hpos hdiv hi, cell_index_lt hpos hdiv hk⟩)
    (Mat.zeros g g) _ (Mat.zeros_rep g g)
  refine ⟨m, f, ?_, hmrep, ?_⟩
  · unfold generate_small_grid_ground_truth
    simp only [hR, hC, int_div_pos _ hg, Option.bind_eq_bind, Option.some_bind]
    exact hm
  · intro r c hr hc
    have := hf r c hr hc
    simpa only [decide_eq_true_eq] using this

/-- The expansion of an occupancy grid computed from a square mask. -/
theorem ground_truth_rep (mask : Mat) (g S : Nat) (pix : Nat → Nat → Nat)
    (hrep : mask.Rep S S pix) (hpos : 0 < S) (hdiv : g ∣ S) (small : Mat)
    (f : Nat → Nat → Nat) (hsmall : generate_small_grid_ground_truth mask g = some small)
    (hsrep : small.Rep g g f) :
    ∃ out h, generate_grid_ground_truth mask g = some out ∧ out.Rep S S h ∧
      ∀ i k, i < S → k < S →
        (f (i / (S / g)) (k / (S / g)) = 255 → h i k = 255) ∧
        (f (i / (S / g)) (k / (S / g)) ≠ 255 → h i k = 0) := by
  obtain ⟨_, hR, hC, _⟩ := hrep
  obtain ⟨hg, he, hmul⟩ := cell_extent_facts hpos hdiv
  obtain ⟨m, h, hm, hmrep, hh⟩ := scatter_sweep S S S S
    (fun i k => decide (f (i / (S / g)) (k / (S / g)) = 255)) (fun i _ => i) (fun _ k => k)
    (fun i k t => fill_pixel small (S / g) i k t)
    (by
      intro i k t hi hk
      unfold fill_pixel
      simp only [hsrep.2.2.2 _ _ (cell_index_lt hpos hdiv hi) (cell_index_lt hpos hdiv hk),
        int_div_pos _ he, Option.bind_eq_bind, Option.some_bind, decide_eq_true_eq])
    (by
      intro i k hi hk _
      exact ⟨hi, hk⟩)
    (Mat.zeros S S) _ (Mat.zeros_rep S S)
  refine ⟨m, h, ?_, hmrep, ?_⟩
  · unfold generate_grid_ground_truth
    simp only [hsmall, hR, hC, int_div_pos _ hg, Option.bind_eq_bind, Option.some_bind]
    exact hm
  · intro i k hi hk
    obtain ⟨h₁, h₂⟩ := hh i k hi hk
    simp only [decide_eq_true_eq] at h₁ h₂
    constructor
    · intro hf
      exact h₁ ⟨i, k, hi, hk, hf, rfl, rfl⟩
    · intro hf
      apply h₂
      rintro ⟨i', k', _, _, hf', rfl, rfl⟩
      exact hf hf'

theorem Mat.at_some_lt {m : Mat} {i k v : Nat} (h : m.at i k = some v) :
    i < m.rows ∧ k < m.cols := by
  unfold Mat.at at h
  by_contra hc
  rw [if_neg hc] at h
  cases h

theorem Mat.at_eq_get {m : Mat} (h : m.WF) {i k : Nat} (hi : i < m.rows) (hk : k < m.cols) :
    m.at i k = some (m.get i k) :=
  (Mat.rep_get h).2.2.2 i k hi hk

/-- Classifying the expansion of an occupancy grid gives the occupancy grid back, and
expanding again gives the same expansion. -/
theorem round_trip (mask : Mat) (g S : Nat) (pix : Nat → Nat → Nat)
    (hrep : mask.Rep S S pix) (hpos : 0 < S) (hdiv : g ∣ S) :
    ∃ out small, generate_grid_ground_truth mask g = some out ∧
      generate_small_grid_ground_truth mask g = some small ∧
      generate_small_grid_ground_truth out g = some small ∧
      generate_grid_ground_truth out g = some out ∧ out.Rep S S out.get := by
  obtain ⟨hg, he, hmul⟩ := cell_extent_facts hpos hdiv
  obtain ⟨small, f, hsmall, hsrep, hf⟩ := small_grid_rep mask g S pix hrep hpos hdiv
  obtain ⟨out, h, hout, horep, hh⟩ := ground_truth_rep mask g S pix hrep hpos hdiv small f
    hsmall hsrep
  obtain ⟨small', f', hsmall', hsrep', hf'⟩ := small_grid_rep out g S h horep hpos hdiv
  have hval : ∀ r c, r < g → c < g → f r c = 255 ∨ f r c = 0 := by
    intro r c hr hc
    by_cases hex : ∃ i k, i < S ∧ k < S ∧ 127 < pix i k ∧ i / (S / g) = r ∧ k / (S / g) = c
    · exact Or.inl ((hf r c hr hc).1 hex)
    · exact Or.inr ((hf r c hr hc).2 hex)
  have hff : ∀ r c, r < g → c < g → f' r c = f r c := by
    intro r c hr hc
    rcases hval r c hr hc with h255 | h0
    · rw [h255]
      apply (hf' r c hr hc).1
      have hi : r * (S / g) < S := by
        calc r * (S / g) < g * (S / g) := Nat.mul_lt_mul_of_pos_right hr he
          _ = S := by rw [Nat.mul_comm, hmul]
      have hk : c * (S / g) < S := by
        calc c * (S / g) < g * (S / g) := Nat.mul_lt_mul_of_pos_right hc he
          _ = S := by rw [Nat.mul_comm, hmul]
      have ei : r * (S / g) / (S / g) = r := Nat.mul_div_cancel r he
      have ek : c * (S / g) / (S / g) = c := Nat.mul_div_cancel c he
      refine ⟨r * (S / g), c * (S / g), hi, hk, ?_, ei, ek⟩
      rw [(hh _ _ hi hk).1 (by rw [ei, ek]; exact h255)]
      omega
    · rw [h0]
      apply (hf' r c hr hc).2
      rintro ⟨i, k, hi, hk, hlt, rfl, rfl⟩
      rw [(hh i k hi hk).2 (by rw [h0]; omega)] at hlt
      omega
  have hse : small' = small := Mat.rep_ext hsrep' hsrep hff
  rw [hse] at hsmall'
  obtain ⟨out', h', hout', horep', hh'⟩ := ground_truth_rep out g S h horep hpos hdiv small f
    hsmall' hsrep
  have hoe : out' = out := by
    apply Mat.rep_ext horep' horep
    intro i k hi hk
    by_cases e : f (i / (S / g)) (k / (S / g)) = 255
    · rw [(hh' i k hi hk).1 e, (hh i k hi hk).1 e]
    · rw [(hh' i k hi hk).2 e, (hh i k hi hk).2 e]
  rw [hoe] at hout'
  refine ⟨out, small, hout, hsmall, hsmall', hout', ?_⟩
  have := Mat.rep_get horep.1
  rwa [horep.2.1, horep.2.2.1] at this

/-- The checkerboard computed by `generate_grid_encoding`. -/
theorem grid_encoding_rep (n g : Nat) (hg : 0 < g) (hle : g ≤ n) :
    ∃ enc f, generate_grid_encoding n g = some enc ∧ enc.Rep n n f ∧
      ∀ i k, i < n → k < n →
        ((i / (n / g)) % 2 ≠ (k / (n / g)) % 2 → f i k = 255) ∧
        ((i / (n / g)) % 2 = (k / (n / g)) % 2 → f i k = 0) := by
  have he : 0 < n / g := Nat.div_pos hle hg
  obtain ⟨m, f, hm, hmrep, hf⟩ := scatter_sweep n n n n
    (fun i k => decide ((i / (n / g)) % 2 ≠ (k / (n / g)) % 2)) (fun i _ => i) (fun _ k => k)
    (fun i k t => encode_pixel (n / g) i k t)
    (by
      intro i k t hi hk
      unfold encode_pixel
      simp only [int_div_pos _ he, Option.bind_eq_bind, Option.some_bind, decide_eq_true_eq])
    (by
      intro i k hi hk _
      exact ⟨hi, hk⟩)
    (Mat.zeros n n) _ (Mat.zeros_rep n n)
  refine ⟨m, f, ?_, hmrep, ?_⟩
  · unfold generate_grid_encoding
    simp only [int_div_pos _ hg, Option.bind_eq_bind, Option.some_bind]
    exact hm
  · intro i k hi hk
    obtain ⟨h₁, h₂⟩ := hf i k hi hk
    simp only [decide_eq_true_eq] at h₁ h₂
    constructor
    · intro e
      exact h₁ ⟨i, k, hi, hk, e, rfl, rfl⟩
    · intro e
      apply h₂
      rintro ⟨i', k', _, _, e', rfl, rfl⟩
      exact e' e

/-! ## Grid functions: the claims -/

/-- C6: for a square mask whose side is a positive multiple of the grid size,
`generate_small_grid_ground_truth` returns a `grid_size` by `grid_size` grid whose cell
`(r, c)` is 255 when some mask pixel `(i, k)` with `i / cell_extent = r` and
`k / cell_extent = c` has a value above 127, and 0 otherwise, where
`cell_extent = side / grid_size`. -/
theorem generate_small_grid_ground_truth_spec (mask : Mat) (grid_size : Nat) (hwf : mask.WF)
    (hsq : mask.rows = mask.cols) (hpos : 0 < mask.rows) (hdiv : grid_size ∣ mask.rows) :
    ∃ grid, generate_small_grid_ground_truth mask grid_size = some grid ∧
      grid.WF ∧ grid.rows = grid_size ∧ grid.cols = grid_size ∧
      ∀ r c, r < grid_size → c < grid_size →
        ((∃ i k v, i / (mask.rows / grid_size) = r ∧ k / (mask.rows / grid_size) = c ∧
            mask.at i k = some v ∧ 127 < v) → grid.at r c = some 255) ∧
        ((¬ ∃ i k v, i / (mask.rows / grid_size) = r ∧ k / (mask.rows / grid_size) = c ∧
            mask.at i k = some v ∧ 127 < v) → grid.at r c = some 0) := by
  have hrep : mask.Rep mask.rows mask.rows mask.get := by
    have := Mat.rep_get hwf
    rwa [← hsq] at this
  obtain ⟨grid, f, hgrid, hgrep, hf⟩ := small_grid_rep mask grid_size mask.rows mask.get hrep
    hpos hdiv
  refine ⟨grid, hgrid, hgrep.1, hgrep.2.1, hgrep.2.2.1, ?_⟩
  intro r c hr hc
  obtain ⟨h₁, h₂⟩ := hf r c hr hc
  rw [hgrep.2.2.2 r c hr hc]
  constructor
  · rintro ⟨i, k, v, hi, hk, hv, hlt⟩
    obtain ⟨hi', hk'⟩ := Mat.at_some_lt hv
    rw [← hsq] at hk'
    have e := hrep.2.2.2 i k hi' hk'
    rw [hv] at e
    simp only [Option.some.injEq] at e
    rw [h₁ ⟨i, k, hi', hk', by rw [← e]; exact hlt, hi, hk⟩]
  · intro hno
    rw [h₂ ?_]
    rintro ⟨i, k, hi', hk', hlt, hi, hk⟩
    exact hno ⟨i, k, mask.get i k, hi, hk, hrep.2.2.2 i k hi' hk', hlt⟩

/-- Witness for C6: the 8x8 mask with one pixel of value 200 at row 3, column 4 and grid
size 4; only cell `(1, 2)` is marked. -/
theorem generate_small_grid_ground_truth_spec_witness :
    generate_small_grid_ground_truth single_pixel_mask 4
      = some { rows := 4, cols := 4,
               data := [[0, 0, 0, 0], [0, 0, 255, 0], [0, 0, 0, 0], [0, 0, 0, 0]] } ∧
    ∃ grid, generate_small_grid_ground_truth single_pixel_mask 4 = some grid ∧
      grid.WF ∧ grid.rows = 4 ∧ grid.cols = 4 ∧
      ∀ r c, r < 4 → c < 4 →
        ((∃ i k v, i / (single_pixel_mask.rows / 4) = r ∧ k / (single_pixel_mask.rows / 4) = c ∧
            single_pixel_mask.at i k = some v ∧ 127 < v) → grid.at r c = some 255) ∧
        ((¬ ∃ i k v, i / (single_pixel_mask.rows / 4) = r ∧
            k / (single_pixel_mask.rows / 4) = c ∧
            single_pixel_mask.at i k = some v ∧ 127 < v) → grid.at r c = some 0) :=
  ⟨by decide,
   generate_small_grid_ground_truth_spec single_pixel_mask 4 (by decide) (by decide)
     (by decide) (by decide)⟩

/-- C7: for a square mask whose side is a positive multiple of the grid size,
`generate_grid_ground_truth` returns a mask of the same side whose pixel `(i, k)` is 255
when cell `(i / cell_extent, k / cell_extent)` of the occupancy grid returned by
`generate_small_grid_ground_truth` is 255, and 0 otherwise, with
`cell_extent = side / grid_size`. -/
theorem generate_grid_ground_truth_spec (mask : Mat) (grid_size : Nat) (hwf : mask.WF)
    (hsq : mask.rows = mask.cols) (hpos : 0 < mask.rows) (hdiv : grid_size ∣ mask.rows) :
    ∃ small out, generate_small_grid_ground_truth mask grid_size = some small ∧
      generate_grid_ground_truth mask grid_size = some out ∧
      out.WF ∧ out.rows = mask.rows ∧ out.cols = mask.cols ∧
      ∀ i k, i < mask.rows → k < mask.cols →
        (small.at (i / (mask.rows / grid_size)) (k / (mask.rows / grid_size)) = some 255 →
          out.at i k = some 255) ∧
        (small.at (i / (mask.rows / grid_size)) (k / (mask.rows / grid_size)) ≠ some 255 →
          out.at i k = some 0) := by
  have hrep : mask.Rep mask.rows mask.rows mask.get := by
    have := Mat.rep_get hwf
    rwa [← hsq] at this
  obtain ⟨small, f, hsmall, hsrep, _⟩ := small_grid_rep mask grid_size mask.rows mask.get hrep
    hpos hdiv
  obtain ⟨out, h, hout, horep, hh⟩ := ground_truth_rep mask grid_size mask.rows mask.get hrep
    hpos hdiv small f hsmall hsrep
  refine ⟨small, out, hsmall, hout, horep.1, horep.2.1, ?_, ?_⟩
  · rw [horep.2.2.1, hsq]
  · intro i k hi hk
    rw [← hsq] at hk
    rw [hsrep.2.2.2 _ _ (cell_index_lt hpos hdiv hi) (cell_index_lt hpos hdiv hk),
      horep.2.2.2 i k hi hk]
    obtain ⟨h₁, h₂⟩ := hh i k hi hk
    constructor
    · intro e
      simp only [Option.some.injEq] at e
      rw [h₁ e]
    · intro e
      rw [h₂ (fun e' => e (by rw [e']))]

/-- Witness for C7: the 8x8 mask with one pixel above the threshold and grid size 4; the
2x2 block of cell `(1, 2)` is 255 and every other pixel is 0. -/
theorem generate_grid_ground_truth_spec_witness :
    generate_grid_ground_truth single_pixel_mask 4
      = some { rows := 8, cols := 8,
               data := [[0, 0, 0, 0, 0, 0, 0, 0], [0, 0, 0, 0, 0, 0, 0, 0],
                        [0, 0, 0, 0, 255, 255, 0, 0], [0, 0, 0, 0, 255, 255, 0, 0],
                        [0, 0, 0, 0, 0, 0, 0, 0], [0, 0, 0, 0, 0, 0, 0, 0],
                        [0, 0, 0, 0, 0, 0, 0, 0], [0, 0, 0, 0, 0, 0, 0, 0]] } ∧
    ∃ small out, generate_small_grid_ground_truth single_pixel_mask 4 = some small ∧
      generate_grid_ground_truth single_pixel_mask 4 = some out ∧
      out.WF ∧ out.rows = single_pixel_mask.rows ∧ out.cols = single_pixel_mask.cols ∧
      ∀ i k, i < single_pixel_mask.rows → k < single_pixel_mask.cols →
        (small.at (i / (single_pixel_mask.rows / 4)) (k / (single_pixel_mask.rows / 4))
            = some 255 → out.at i k = some 255) ∧
        (small.at (i / (single_pixel_mask.rows / 4)) (k / (single_pixel_mask.rows / 4))
            ≠ some 255 → out.at i k = some 0) :=
  ⟨by decide,
   generate_grid_ground_truth_spec single_pixel_mask 4 (by decide) (by decide)
     (by decide) (by decide)⟩

/-- C8: for a square mask whose side is a positive multiple of the grid size, applying
`generate_grid_ground_truth` to its own result returns that result again, and the occupancy
grid of the result is the occupancy grid of the mask. -/
theorem generate_grid_ground_truth_idempotent (mask : Mat) (grid_size : Nat) (hwf : mask.WF)
    (hsq : mask.rows = mask.cols) (hpos : 0 < mask.rows) (hdiv : grid_size ∣ mask.rows) :
    ∃ out small, generate_grid_ground_truth mask grid_size = some out ∧
      generate_grid_ground_truth out grid_size = some out ∧
      generate_small_grid_ground_truth mask grid_size = some small ∧
      generate_small_grid_ground_truth out grid_size = some small := by
  have hrep : mask.Rep mask.rows mask.rows mask.get := by
    have := Mat.rep_get hwf
    rwa [← hsq] at this
  obtain ⟨out, small, h₁, h₂, h₃, h₄, _⟩ := round_trip mask grid_size mask.rows mask.get hrep
    hpos hdiv
  exact ⟨out, small, h₁, h₄, h₂, h₃⟩

/-- Witness for C8: the 8x8 mask with one pixel above the threshold and grid size 4. -/
theorem generate_grid_ground_truth_idempotent_witness :
    ∃ out small, generate_grid_ground_truth single_pixel_mask 4 = some out ∧
      generate_grid_ground_truth out 4 = some out ∧
      generate_small_grid_ground_truth single_pixel_mask 4 = some small ∧
      generate_small_grid_ground_truth out 4 = some small :=
  generate_grid_ground_truth_idempotent single_pixel_mask 4 (by decide) (by decide)
    (by decide) (by decide)

/-- C9: for `1 ≤ grid_size ≤ img_size`, `generate_grid_encoding` returns an `img_size` by
`img_size` image whose pixel `(i, k)` is 255 when `(i / cell_len) % 2` and
`(k / cell_len) % 2` differ and 0 when they agree, with `cell_len = img_size / grid_size`;
for `(16, 4)` the pixels of rows 0..3 are 0 in columns 0..3 and 255 in columns 4..7. -/
theorem generate_grid_encoding_spec :
    (∀ img_size grid_size : Nat, 1 ≤ grid_size → grid_size ≤ img_size →
      ∃ enc, generate_grid_encoding img_size grid_size = some enc ∧
        enc.WF ∧ enc.rows = img_size ∧ enc.cols = img_size ∧
        ∀ i k, i < img_size → k < img_size →
          ((i / (img_size / grid_size)) % 2 ≠ (k / (img_size / grid_size)) % 2 →
            enc.at i k = some 255) ∧
          ((i / (img_size / grid_size)) % 2 = (k / (img_size / grid_size)) % 2 →
            enc.at i k = some 0)) ∧
    (∃ enc, generate_grid_encoding 16 4 = some enc ∧
      (∀ i k, i < 4 → k < 4 → enc.at i k = some 0) ∧
      (∀ i k, i < 4 → 4 ≤ k → k < 8 → enc.at i k = some 255)) := by
  have hgen : ∀ img_size grid_size : Nat, 1 ≤ grid_size → grid_size ≤ img_size →
      ∃ enc, generate_grid_encoding img_size grid_size = some enc ∧
        enc.WF ∧ enc.rows = img_size ∧ enc.cols = img_size ∧
        ∀ i k, i < img_size → k < img_size →
          ((i / (img_size / grid_size)) % 2 ≠ (k / (img_size / grid_size)) % 2 →
            enc.at i k = some 255) ∧
          ((i / (img_size / grid_size)) % 2 = (k / (img_size / grid_size)) % 2 →
            enc.at i k = some 0) := by
    intro n g hg hle
    obtain ⟨enc, f, henc, hrep, hf⟩ := grid_encoding_rep n g hg hle
    refine ⟨enc, henc, hrep.1, hrep.2.1, hrep.2.2.1, ?_⟩
    intro i k hi hk
    rw [hrep.2.2.2 i k hi hk]
    obtain ⟨h₁, h₂⟩ := hf i k hi hk
    exact ⟨fun e => by rw [h₁ e], fun e => by rw [h₂ e]⟩
  refine ⟨hgen, ?_⟩
  obtain ⟨enc, henc, _, _, _, hpix⟩ := hgen 16 4 (by omega) (by omega)
  refine ⟨enc, henc, ?_, ?_⟩
  · intro i k hi hk
    apply (hpix i k (by omega) (by omega)).2
    have ei : i / (16 / 4) = 0 := by omega
    have ek : k / (16 / 4) = 0 := by omega
    rw [ei, ek]
  · intro i k hi hk4 hk8
    apply (hpix i k (by omega) (by omega)).1
    have ei : i / (16 / 4) = 0 := by omega
    have ek : k / (16 / 4) = 1 := by omega
    rw [ei, ek]
    decide

/-- Witness for C9: the encoding of size 4 with grid size 2. -/
theorem generate_grid_encoding_spec_witness :
    generate_grid_encoding 4 2
      = some { rows := 4, cols := 4,
               data := [[0, 0, 255, 255], [0, 0, 255, 255],
                        [255, 255, 0, 0], [255, 255, 0, 0]] } ∧
    ∃ enc, generate_grid_encoding 4 2 = some enc ∧
      enc.WF ∧ enc.rows = 4 ∧ enc.cols = 4 ∧
      ∀ i k, i < 4 → k < 4 →
        ((i / (4 / 2)) % 2 ≠ (k / (4 / 2)) % 2 → enc.at i k = some 255) ∧
        ((i / (4 / 2)) % 2 = (k / (4 / 2)) % 2 → enc.at i k = some 0) :=
  ⟨by decide, generate_grid_encoding_spec.1 4 2 (by decide) (by decide)⟩

/-! ## Rotation augmentation: the claim -/

/-- C10 as stated fails: for the partition `train` with rotation augmentation enabled the
angles are not `0, 90, 180, 270`; the angle 0 is not among them and 360 is. -/
theorem rotations_augments_train_not_zero_based :
    rotations_augments "train" true ≠ [0, 90, 180, 270] ∧
    (0 : Int) ∉ rotations_augments "train" true ∧
    (360 : Int) ∈ rotations_augments "train" true := by
  decide

/-- C10, amended: for the partition `train` with rotation augmentation enabled the angles
are `90, 180, 270, 360`, which are the angles `90, 180, 270, 0` modulo 360; for every other
partition, and for every partition when rotation augmentation is disabled, the only angle
is 0. -/
theorem rotations_augments_spec (dataset_name : String) (rot_aug : Bool) :
    (dataset_name = "train" ∧ rot_aug = true →
      rotations_augments dataset_name rot_aug = [90, 180, 270, 360] ∧
      (rotations_augments dataset_name rot_aug).map (fun a => a % 360) = [90, 180, 270, 0]) ∧
    (¬ (dataset_name = "train" ∧ rot_aug = true) →
      rotations_augments dataset_name rot_aug = [0]) := by
  unfold rotations_augments
  constructor
  · intro h
    rw [if_pos h]
    exact ⟨rfl, by decide⟩
  · intro h
    rw [if_neg h]

/-- Witness for C10: the partitions `train` and `test` with rotation augmentation enabled. -/
theorem rotations_augments_spec_witness :
    rotations_augments "train" true = [90, 180, 270, 360] ∧
    rotations_augments "test" true = [0] :=
  ⟨((rotations_augments_spec "train" true).1 ⟨rfl, rfl⟩).1,
   (rotations_augments_spec "test" true).2 (by decide)⟩

/-! ## Splitting: the error test and the slices -/

theorem vector_range_length {T : Type} (data : List T) (a b : Int) (l : List T)
    (h : vector_range data a b = some l) : (l.length : Int) = b - a := by
  unfold vector_range at h
  by_cases hc : 0 ≤ a ∧ a ≤ b ∧ b ≤ (data.length : Int)
  · rw [if_pos hc] at h
    simp only [Option.some.injEq] at h
    rw [← h, List.length_take, List.length_drop]
    omega
  · rw [if_neg hc] at h
    cases h

/-- The error message of `train_test_split` is never printed: when the test is reached the
test part has just been built from a range of `test_size` elements. -/
theorem train_test_split_never_reports {T : Type} (shuffle : List T → List T) (data : List T)
    (test_size : Int) : train_test_split_reports shuffle data test_size ≠ some true := by
  unfold train_test_split_reports
  by_cases h0 : test_size = 0
  · rw [if_pos h0]
    simp
  · rw [if_neg h0]
    intro h
    cases h₁ : vector_range (shuffle data) 0 test_size with
    | none =>
      simp only [h₁, Option.none_bind] at h
      cases h
    | some td =>
      have hl := vector_range_length _ _ _ _ h₁
      cases h₂ : vector_range (shuffle data) test_size (((shuffle data).length : Int) - 1) with
      | none =>
        simp only [h₁, h₂, Option.some_bind, Option.none_bind] at h
        cases h
      | some tr =>
        simp only [h₁, h₂, Option.some_bind, ne_eq, Option.some.injEq, decide_eq_true_eq] at h
        omega

/-- C13 (defect in the code): for the one-element vector `[a]` and `test_size = 2` the
pointer range of the test part runs past the end of the vector, so the behaviour of
`train_test_split` is undefined; the test that would print the error message is not reached,
and no error is reported. -/
theorem train_test_split_oversize_undefined :
    vector_range ["a"] 0 2 = none ∧
    train_test_split id ["a"] 2 = none ∧
    train_test_split_reports id ["a"] 2 = none := by
  decide

/-- C18 (defect in the code): for the ids `a, b, c, d` and both fractions 1/2 the first split
returns the remainder `[c]`, and the nested split asks for the train slice from index 1 to
index 0 of it: the start lies after the end, the slice is not well formed and
`split_dataset` is undefined. -/
theorem split_dataset_nested_slice_inverted :
    train_test_split id ["a", "b", "c", "d"] 2 = some (["c"], ["a", "b"]) ∧
    scaled_size (1 / 2) 4 = 2 ∧ scaled_size (1 / 2) (4 - 2) = 1 ∧
    vector_range ["c"] 1 (((["c"] : List String).length : Int) - 1) = none ∧
    train_test_split id ["c"] 1 = none ∧
    split_dataset id id ["a", "b", "c", "d"] (1 / 2) (1 / 2) = none := by
  decide!

/-! ## Grid functions: bounds -/

theorem Mat.at_none_of_le {m : Mat} {i k : Nat} (h : m.rows ≤ i ∨ m.cols ≤ k) :
    m.at i k = none := by
  unfold Mat.at
  rw [if_neg (by omega)]

theorem Mat.set_none_of_le {m : Mat} {i k : Nat} (v : Nat) (h : m.rows ≤ i ∨ m.cols ≤ k) :
    m.set i k v = none := by
  unfold Mat.set
  rw [if_neg (by omega)]

theorem Mat.set_dims {m m' : Mat} {i k v : Nat} (h : m.set i k v = some m') :
    m'.rows = m.rows ∧ m'.cols = m.cols := by
  unfold Mat.set at h
  by_cases hc : i < m.rows ∧ k < m.cols
  · rw [if_pos hc] at h
    simp only [Option.some.injEq] at h
    rw [← h]
    exact ⟨rfl, rfl⟩
  · rw [if_neg hc] at h
    cases h

/-- A property kept by every pass is kept by the loop. -/
theorem for_loop_preserves {σ : Type} (P : σ → Prop) (n : Nat) (body : Nat → σ → Option σ)
    (hbody : ∀ i t t', P t → body i t = some t' → P t') (s t : σ) (hs : P s)
    (h : for_loop n body s = some t) : P t := by
  induction n generalizing t with
  | zero =>
    simp only [for_loop, Option.some.injEq] at h
    rw [← h]
    exact hs
  | succ n ih =>
    simp only [for_loop] at h
    cases hn : for_loop n body s with
    | none => rw [hn] at h; cases h
    | some u =>
      rw [hn, Option.some_bind] at h
      exact hbody n u t (ih u hn) h

/-- A loop with a pass that is undefined in every state is undefined. -/
theorem for_loop_none {σ : Type} (n : Nat) (body : Nat → σ → Option σ) (s : σ) (k₀ : Nat)
    (hk : k₀ < n) (hbody : ∀ t, body k₀ t = none) : for_loop n body s = none := by
  induction n with
  | zero => omega
  | succ n ih =>
    simp only [for_loop]
    by_cases e : k₀ = n
    · subst e
      cases for_loop k₀ body s with
      | none => rfl
      | some t => exact hbody t
    · rw [ih (by omega)]
      rfl

/-- The occupancy grid has `grid_size` rows and columns whenever it is returned. -/
theorem small_grid_dims (mask : Mat) (g : Nat) (small : Mat)
    (h : generate_small_grid_ground_truth mask g = some small) :
    small.rows = g ∧ small.cols = g := by
  unfold generate_small_grid_ground_truth at h
  cases he : int_div mask.rows g with
  | none => simp [he] at h
  | some e =>
    simp only [he, Option.bind_eq_bind, Option.some_bind] at h
    refine for_loop_preserves (fun m => m.rows = g ∧ m.cols = g) _ _ ?_ _ _ ⟨rfl, rfl⟩ h
    intro i t t' ht hrow
    refine for_loop_preserves (fun m => m.rows = g ∧ m.cols = g) _ _ ?_ _ _ ht hrow
    intro k u u' hu hstep
    unfold mark_cell at hstep
    cases hpx : mask.at i k with
    | none => simp [hpx] at hstep
    | some px =>
      simp only [hpx, Option.bind_eq_bind, Option.some_bind] at hstep
      by_cases hgt : px > 127
      · rw [if_pos hgt] at hstep
        cases hr : int_div i e with
        | none => simp [hr] at hstep
        | some r =>
          cases hc : int_div k e with
          | none => simp [hr, hc] at hstep
          | some c =>
            simp only [hr, hc, Option.some_bind] at hstep
            obtain ⟨h₁, h₂⟩ := Mat.set_dims hstep
            rw [h₁, h₂]
            exact hu
      · rw [if_neg hgt] at hstep
        simp only [Option.some.injEq] at hstep
        rw [← hstep]
        exact hu

/-- Facts about the cell extent when the grid size does not divide the side. -/
theorem cell_extent_remainder {S g : Nat} (h1 : 1 ≤ g) (hle : g ≤ S) (hnd : ¬ g ∣ S) :
    0 < S / g ∧ S / g * g < S := by
  have he : 0 < S / g := Nat.div_pos hle h1
  have hmul : S / g * g ≤ S := Nat.div_mul_le_self S g
  refine ⟨he, lt_of_le_of_ne hmul ?_⟩
  intro e
  exact hnd ⟨S / g, by rw [Nat.mul_comm]; exact e.symm⟩

/-- C16: for a square mask and `1 ≤ grid_size ≤ side` with the side not a multiple of
`grid_size`, every index at or above `cell_extent * grid_size` is sent to a cell index at or
above `grid_size`, such an index exists below the side, a cell with such a row or column
index is outside every `grid_size` by `grid_size` grid, and `generate_grid_ground_truth` is
undefined. -/
theorem generate_grid_ground_truth_out_of_bounds (mask : Mat) (grid_size : Nat)
    (hwf : mask.WF) (hsq : mask.rows = mask.cols) (h1 : 1 ≤ grid_size)
    (hle : grid_size ≤ mask.rows) (hnd : ¬ grid_size ∣ mask.rows) :
    (∀ i, mask.rows / grid_size * grid_size ≤ i →
      ∃ c, int_div i (mask.rows / grid_size) = some c ∧ grid_size ≤ c) ∧
    (∃ i, i < mask.rows ∧ mask.rows / grid_size * grid_size ≤ i) ∧
    (∀ grid : Mat, grid.rows = grid_size → grid.cols = grid_size → ∀ r c v,
      grid_size ≤ r ∨ grid_size ≤ c → grid.at r c = none ∧ grid.set r c v = none) ∧
    generate_grid_ground_truth mask grid_size = none := by
  have _ := hwf
  obtain ⟨he, hlt⟩ := cell_extent_remainder h1 hle hnd
  have hidx : ∀ i, mask.rows / grid_size * grid_size ≤ i →
      grid_size ≤ i / (mask.rows / grid_size) := by
    intro i hi
    rw [Nat.le_div_iff_mul_le he, Nat.mul_comm]
    exact hi
  refine ⟨?_, ⟨_, hlt, le_refl _⟩, ?_, ?_⟩
  · intro i hi
    exact ⟨_, int_div_pos i he, hidx i hi⟩
  · intro grid hr hc r c v hrc
    exact ⟨Mat.at_none_of_le (by omega), Mat.set_none_of_le v (by omega)⟩
  · unfold generate_grid_ground_truth
    cases hs : generate_small_grid_ground_truth mask grid_size with
    | none => rfl
    | some small =>
      obtain ⟨hsr, hsc⟩ := small_grid_dims mask grid_size small hs
      simp only [int_div_pos _ h1, Option.bind_eq_bind, Option.some_bind]
      apply for_loop_none mask.rows _ _ 0 (by omega)
      intro t
      apply for_loop_none mask.cols _ _ (mask.rows / grid_size * grid_size) (by omega)
      intro u
      unfold fill_pixel
      have hcell : small.at (0 / (mask.rows / grid_size))
          (mask.rows / grid_size * grid_size / (mask.rows / grid_size)) = none :=
        Mat.at_none_of_le (Or.inr (by rw [hsc]; exact hidx _ (le_refl _)))
      simp only [int_div_pos _ he, Option.bind_eq_bind, Option.some_bind, hcell,
        Option.none_bind]

/-- Witness for C16: a 5x5 mask of zeros and grid size 2. -/
theorem generate_grid_ground_truth_out_of_bounds_witness :
    generate_grid_ground_truth (Mat.zeros 5 5) 2 = none ∧
    int_div 4 ((Mat.zeros 5 5).rows / 2) = some 2 :=
  ⟨(generate_grid_ground_truth_out_of_bounds (Mat.zeros 5 5) 2 (by decide) (by decide)
      (by decide) (by decide) (by decide)).2.2.2, by decide⟩

/-- C17: for a square mask whose side is a positive multiple of `grid_size ≥ 1`, the cell
extent is computed without a division by zero and is positive, every index below the side
is divided by it without a division by zero and gives a cell index below `grid_size`, and
both `generate_small_grid_ground_truth` and `generate_grid_ground_truth` return. -/
theorem grid_indices_in_bounds (mask : Mat) (grid_size : Nat) (hwf : mask.WF)
    (hsq : mask.rows = mask.cols) (h1 : 1 ≤ grid_size) (hpos : 0 < mask.rows)
    (hdiv : grid_size ∣ mask.rows) :
    (∃ e, int_div mask.rows grid_size = some e ∧ 0 < e ∧
      ∀ i, i < mask.rows → ∃ c, int_div i e = some c ∧ c < grid_size) ∧
    (∃ small, generate_small_grid_ground_truth mask grid_size = some small) ∧
    (∃ out, generate_grid_ground_truth mask grid_size = some out) := by
  have _ := h1
  obtain ⟨hg, he, _⟩ := cell_extent_facts hpos hdiv
  have hrep : mask.Rep mask.rows mask.rows mask.get := by
    have := Mat.rep_get hwf
    rwa [← hsq] at this
  obtain ⟨out, small, hout, hsmall, _⟩ := round_trip mask grid_size mask.rows mask.get hrep
    hpos hdiv
  refine ⟨⟨_, int_div_pos _ hg, he, ?_⟩, ⟨small, hsmall⟩, ⟨out, hout⟩⟩
  intro i hi
  exact ⟨_, int_div_pos i he, cell_index_lt hpos hdiv hi⟩

/-- Witness for C17: the 8x8 single-pixel mask and grid size 4. -/
theorem grid_indices_in_bounds_witness :
    (∃ e, int_div single_pixel_mask.rows 4 = some e ∧ 0 < e ∧
      ∀ i, i < single_pixel_mask.rows → ∃ c, int_div i e = some c ∧ c < 4) ∧
    (∃ small, generate_small_grid_ground_truth single_pixel_mask 4 = some small) ∧
    (∃ out, generate_grid_ground_truth single_pixel_mask 4 = some out) :=
  grid_indices_in_bounds single_pixel_mask 4 (by decide) (by decide) (by decide) (by decide)
    (by decide)

/-! ## Grid functions: covering and the finest grid -/

/-- The grid ground truth of a mask without pixels is the matrix without pixels. -/
theorem grid_ground_truth_empty (mask : Mat) (g : Nat) (hg : 0 < g) (hr : mask.rows = 0)
    (hc : mask.cols = 0) : generate_grid_ground_truth mask g = some (Mat.zeros 0 0) := by
  have hsmall : generate_small_grid_ground_truth mask g = some (Mat.zeros g g) := by
    unfold generate_small_grid_ground_truth
    simp only [hr, int_div_pos _ hg, Option.bind_eq_bind, Option.some_bind, for_loop]
  unfold generate_grid_ground_truth
  simp only [hsmall, hr, hc, int_div_pos _ hg, Option.bind_eq_bind, Option.some_bind, for_loop]

/-- C19: for a square mask and a grid size `g ≥ 1` that divides its side,
`generate_grid_ground_truth` returns a matrix in which every pixel whose mask value is above
127 is 255, and every pixel is 0 or 255. -/
theorem generate_grid_ground_truth_covers (mask : Mat) (grid_size : Nat) (hwf : mask.WF)
    (hsq : mask.rows = mask.cols) (hg : 1 ≤ grid_size) (hdiv : grid_size ∣ mask.rows) :
    ∃ out, generate_grid_ground_truth mask grid_size = some out ∧
      (∀ i k v, mask.at i k = some v → 127 < v → out.at i k = some 255) ∧
      (∀ i k v, out.at i k = some v → v = 0 ∨ v = 255) := by
  rcases Nat.eq_zero_or_pos mask.rows with h0 | hpos
  · refine ⟨_, grid_ground_truth_empty mask grid_size hg h0 (by omega), ?_, ?_⟩
    · intro i k v hv
      have := Mat.at_some_lt hv
      omega
    · intro i k v hv
      have := Mat.at_some_lt hv
      simp only [Mat.zeros] at this
      omega
  · have hrep : mask.Rep mask.rows mask.rows mask.get := by
      have := Mat.rep_get hwf
      rwa [← hsq] at this
    obtain ⟨small, f, hsmall, hsrep, hf⟩ := small_grid_rep mask grid_size mask.rows mask.get
      hrep hpos hdiv
    obtain ⟨out, h, hout, horep, hh⟩ := ground_truth_rep mask grid_size mask.rows mask.get
      hrep hpos hdiv small f hsmall hsrep
    refine ⟨out, hout, ?_, ?_⟩
    · intro i k v hv hlt
      obtain ⟨hi, hk⟩ := Mat.at_some_lt hv
      rw [← hsq] at hk
      have e := hrep.2.2.2 i k hi hk
      rw [hv] at e
      simp only [Option.some.injEq] at e
      have hcell : f (i / (mask.rows / grid_size)) (k / (mask.rows / grid_size)) = 255 :=
        (hf _ _ (cell_index_lt hpos hdiv hi) (cell_index_lt hpos hdiv hk)).1
          ⟨i, k, hi, hk, by rw [← e]; exact hlt, rfl, rfl⟩
      rw [horep.2.2.2 i k hi hk, (hh i k hi hk).1 hcell]
    · intro i k v hv
      obtain ⟨hi, hk⟩ := Mat.at_some_lt hv
      rw [horep.2.1] at hi
      rw [horep.2.2.1] at hk
      rw [horep.2.2.2 i k hi hk] at hv
      simp only [Option.some.injEq] at hv
      by_cases e : f (i / (mask.rows / grid_size)) (k / (mask.rows / grid_size)) = 255
      · rw [(hh i k hi hk).1 e] at hv
        exact Or.inr hv.symm
      · rw [(hh i k hi hk).2 e] at hv
        exact Or.inl hv.symm

/-- Witness for C19: the 8x8 single-pixel mask and grid size 4. -/
theorem generate_grid_ground_truth_covers_witness :
    ∃ out, generate_grid_ground_truth single_pixel_mask 4 = some out ∧
      (∀ i k v, single_pixel_mask.at i k = some v → 127 < v → out.at i k = some 255) ∧
      (∀ i k v, out.at i k = some v → v = 0 ∨ v = 255) :=
  generate_grid_ground_truth_covers single_pixel_mask 4 (by decide) (by decide) (by decide)
    (by decide)

/-- C20: when the grid size is the side of a square mask with at least one pixel, the cell
extent is 1 and `generate_grid_ground_truth` returns the thresholded mask: pixel `(i, k)` is
255 when the mask value there is above 127 and 0 otherwise. -/
theorem generate_grid_ground_truth_finest (mask : Mat) (hwf : mask.WF)
    (hsq : mask.rows = mask.cols) (hpos : 0 < mask.rows) :
    int_div mask.rows mask.rows = some 1 ∧
    ∃ out, generate_grid_ground_truth mask mask.rows = some out ∧
      out.WF ∧ out.rows = mask.rows ∧ out.cols = mask.cols ∧
      ∀ i k v, mask.at i k = some v →
        (127 < v → out.at i k = some 255) ∧ (v ≤ 127 → out.at i k = some 0) := by
  have hrep : mask.Rep mask.rows mask.rows mask.get := by
    have := Mat.rep_get hwf
    rwa [← hsq] at this
  have he : mask.rows / mask.rows = 1 := Nat.div_self hpos
  obtain ⟨small, f, hsmall, hsrep, hf⟩ := small_grid_rep mask mask.rows mask.rows mask.get
    hrep hpos (dvd_refl _)
  obtain ⟨out, h, hout, horep, hh⟩ := ground_truth_rep mask mask.rows mask.rows mask.get
    hrep hpos (dvd_refl _) small f hsmall hsrep
  rw [he] at hf hh
  simp only [Nat.div_one] at hf hh
  refine ⟨by rw [int_div_pos _ hpos, he], out, hout, horep.1, horep.2.1, ?_, ?_⟩
  · rw [horep.2.2.1, hsq]
  · intro i k v hv
    obtain ⟨hi, hk⟩ := Mat.at_some_lt hv
    rw [← hsq] at hk
    have e := hrep.2.2.2 i k hi hk
    rw [hv] at e
    simp only [Option.some.injEq] at e
    rw [horep.2.2.2 i k hi hk]
    constructor
    · intro hlt
      have hcell : f i k = 255 :=
        (hf i k hi hk).1 ⟨i, k, hi, hk, by rw [← e]; exact hlt, rfl, rfl⟩
      rw [(hh i k hi hk).1 hcell]
    · intro hle
      have hcell : f i k = 0 := by
        apply (hf i k hi hk).2
        rintro ⟨i', k', _, _, hlt, rfl, rfl⟩
        rw [← e] at hlt
        omega
      rw [(hh i k hi hk).2 (by rw [hcell]; omega)]

/-- Witness for C20: the 8x8 single-pixel mask with grid size 8; only the pixel at row 3,
column 4 is 255. -/
theorem generate_grid_ground_truth_finest_witness :
    generate_grid_ground_truth single_pixel_mask 8
      = some { rows := 8, cols := 8,
               data := [[0, 0, 0, 0, 0, 0, 0, 0], [0, 0, 0, 0, 0, 0, 0, 0],
                        [0, 0, 0, 0, 0, 0, 0, 0], [0, 0, 0, 0, 255, 0, 0, 0],
                        [0, 0, 0, 0, 0, 0, 0, 0], [0, 0, 0, 0, 0, 0, 0, 0],
                        [0, 0, 0, 0, 0, 0, 0, 0], [0, 0, 0, 0, 0, 0, 0, 0]] } ∧
    int_div single_pixel_mask.rows single_pixel_mask.rows = some 1 :=
  ⟨by decide,
   (generate_grid_ground_truth_finest single_pixel_mask (by decide) (by decide)
      (by decide)).1⟩

/-! ## File names: auxiliary facts -/

theorem written_in_append {Img : Type} (d : String) (a b : List (Event Img)) :
    written_in d (a ++ b) = written_in d a ++ written_in d b := by
  unfold written_in
  rw [List.filterMap_append]

/-- A unit whose grid ground truth is defined emits its six events and advances the
counter by one. -/
theorem augment_unit_ok {Img : Type} (env : Env Img) (dp name : String) (img : Img)
    (mask gm : Mat) (rot : Int) (g : Nat) (st : GenState Img)
    (h : generate_grid_ground_truth mask g = some gm) :
    augment_unit env dp name img mask rot g st
      = Except.ok { events := st.events ++ unit_events env dp name img gm rot g st.img_count,
                    img_count := st.img_count + 1 } := by
  unfold augment_unit unit_events
  simp only [h, List.append_assoc, List.singleton_append]

/-- A unit whose grid ground truth is undefined stops the run after its first write. -/
theorem augment_unit_undefined {Img : Type} (env : Env Img) (dp name : String) (img : Img)
    (mask : Mat) (rot : Int) (g : Nat) (st : GenState Img)
    (h : generate_grid_ground_truth mask g = none) :
    augment_unit env dp name img mask rot g st
      = Except.error (Halt.undefined, st.events ++
          [Event.imwrite (dp ++ name ++ "/imgs/") (toString st.img_count ++ ".png")
            (Content.image (env.rotate_color img rot))]) := by
  unfold augment_unit
  simp only [h]

theorem written_in_emit_all_length {α Img : Type} (d : String) (k : Nat)
    (E : α → Nat → List (Event Img)) (xs : List α) (w : α → Nat)
    (hE : ∀ x ∈ xs, ∀ c, (written_in d (E x c)).length = w x) (c : Nat) :
    (written_in d (emit_all k E xs c)).length = (xs.map w).sum := by
  induction xs generalizing c with
  | nil => simp [emit_all, written_in]
  | cons x xs ih =>
    simp only [emit_all, written_in_append, List.length_append, List.map_cons, List.sum_cons,
      hE x (List.mem_cons_self x xs), ih (fun y hy => hE y (List.mem_cons_of_mem x hy))]

theorem sum_map_const {α : Type} (xs : List α) (m : Nat) :
    (xs.map (fun _ => m)).sum = xs.length * m := by
  induction xs with
  | nil => simp
  | cons x xs ih =>
    simp only [List.map_cons, List.sum_cons, ih, List.length_cons]
    ring

theorem sum_map_indicator (xs : List Nat) (g : Nat) (hnd : xs.Nodup) (hg : g ∈ xs) :
    (xs.map (fun x => if x = g then 1 else 0)).sum = 1 := by
  induction xs with
  | nil => simp at hg
  | cons x xs ih =>
    rw [List.nodup_cons] at hnd
    simp only [List.map_cons, List.sum_cons]
    by_cases e : x = g
    · subst e
      have hz : (xs.map (fun y => if y = x then 1 else 0)).sum = 0 := by
        apply List.sum_eq_zero
        intro v hv
        simp only [List.mem_map] at hv
        obtain ⟨y, hy, rfl⟩ := hv
        have : y ≠ x := fun e' => hnd.1 (e' ▸ hy)
        simp [this]
      simp [hz]
    · have hg' : g ∈ xs := by
        rcases List.mem_cons.mp hg with h | h
        · exact absurd h.symm e
        · exact h
      simp [e, ih hnd.2 hg']

/-- The number of files a sample writes into the directory of one of the distinct grid
sizes is the number of rotations. -/
theorem written_in_sample_grid_length {Img : Type} (env : Env Img) (dp name ip mp : String)
    (grid_sizes : List Nat) (rotations : List Int) (fp : String) (d : String) (g : Nat)
    (hnd : grid_sizes.Nodup) (hg : g ∈ grid_sizes)
    (hread : ∃ img, env.imread_color (ip ++ fp) = some img)
    (hd : ∀ img gm rot g' n, written_in d (unit_events env dp name img gm rot g' n)
      = if g' = g then [numbered n] else []) (c : Nat) :
    (written_in d (sample_events env dp name ip mp grid_sizes rotations fp c)).length
      = rotations.length := by
  obtain ⟨img, himg⟩ := hread
  unfold sample_events
  simp only [himg]
  rw [written_in_emit_all_length d _ _ rotations (fun _ => 1), sum_map_const, Nat.mul_one]
  intro rot _ c'
  rw [written_in_emit_all_length d 1 _ grid_sizes (fun g' => if g' = g then 1 else 0),
    sum_map_indicator grid_sizes g hnd hg]
  intro g' _ n
  rw [hd]
  by_cases e : g' = g <;> simp [e]

/-- C14 as stated fails: with a half turn about the point `(cols/2, rows/2)` as rotation,
the 8x8 single-pixel mask, angle 180 and grid size 4, the two masks `generate_data` writes are
the rotated grid ground truth of the mask, which is not the grid ground truth of the rotated
mask. -/
theorem augment_unit_rotates_after_grid :
    (match augment_unit (test_env []) "D/" "train" () single_pixel_mask 180 4
        { events := [], img_count := 0 } with
      | Except.ok st => persisted_masks st.events
      | Except.error _ => [])
      = [half_turn_of_grid_truth, half_turn_of_grid_truth] ∧
    (generate_grid_ground_truth single_pixel_mask 4).map
        (fun gm => (test_env []).rotate_gray gm 180) = some half_turn_of_grid_truth ∧
    generate_grid_ground_truth ((test_env []).rotate_gray single_pixel_mask 180) 4
      = some grid_truth_of_half_turn ∧
    half_turn_of_grid_truth ≠ grid_truth_of_half_turn := by
  decide

/-- C14, amended: for every image, mask, rotation angle and grid size for which the grid
ground truth `gm` of the mask is defined, one pass of the innermost loop of `generate_data`
writes exactly two matrices, both equal to `rotate_image(gm, angle)`: the mask is classified
and expanded first and the grid mask is rotated afterwards. They go to the generic `masks`
directory and to the `masks` directory of the grid size, under the current counter. -/
theorem augment_unit_persists_rotated_grid_truth {Img : Type} (env : Env Img)
    (dp name : String) (img : Img) (mask gm : Mat) (rotation : Int) (grid_size : Nat)
    (st : GenState Img) (h : generate_grid_ground_truth mask grid_size = some gm) :
    ∃ st', augment_unit env dp name img mask rotation grid_size st = Except.ok st' ∧
      persisted_masks st'.events
        = persisted_masks st.events ++ [env.rotate_gray gm rotation, env.rotate_gray gm rotation] ∧
      Event.imwrite (dp ++ name ++ "/masks/") (toString st.img_count ++ ".png")
        (Content.matrix (env.rotate_gray gm rotation)) ∈ st'.events ∧
      Event.imwrite (grids_path dp name grid_size ++ "/masks/")
        (toString st.img_count ++ ".png")
        (Content.matrix (env.rotate_gray gm rotation)) ∈ st'.events := by
  refine ⟨_, augment_unit_ok env dp name img mask gm rotation grid_size st h, ?_, ?_, ?_⟩
  · simp [persisted_masks, unit_events, List.filterMap_append]
  · simp [unit_events]
  · simp [unit_events]

/-- Witness for C14, amended: the 8x8 single-pixel mask, angle 180 and grid size 4. -/
theorem augment_unit_persists_rotated_grid_truth_witness :
    ∃ st', augment_unit (test_env []) "D/" "train" () single_pixel_mask 180 4
        { events := [], img_count := 0 } = Except.ok st' ∧
      persisted_masks st'.events
        = persisted_masks ([] : List (Event Unit)) ++
          [(test_env []).rotate_gray grid_truth_of_single_pixel_mask 180,
           (test_env []).rotate_gray grid_truth_of_single_pixel_mask 180] ∧
      Event.imwrite ("D/" ++ "train" ++ "/masks/") (toString 0 ++ ".png")
        (Content.matrix ((test_env []).rotate_gray grid_truth_of_single_pixel_mask 180)) ∈ st'.events ∧
      Event.imwrite (grids_path "D/" "train" 4 ++ "/masks/") (toString 0 ++ ".png")
        (Content.matrix ((test_env []).rotate_gray grid_truth_of_single_pixel_mask 180)) ∈ st'.events :=
  augment_unit_persists_rotated_grid_truth (test_env []) "D/" "train" () single_pixel_mask
    grid_truth_of_single_pixel_mask 180 4 { events := [], img_count := 0 } (by decide)

end GridGAN
